import Mathlib

/-!
Verification of the column-lineage inference engine.

The development shallowly embeds the two lineage scripts of the repository:
the flat extractor (all_lineage.py, function extract_column_lineage) and the
targeted extractor (single_model.py, function extract_model_column_lineage),
including the character-level semantics of the three regular-expression
heuristics, the recursive upstream/downstream closure resolvers with their
shared visited set, and the targeted-mode export shape.

Strings are matched over lists of characters; positions are natural numbers.
Python dictionaries are embedded as association lists in insertion order
(assignment to an existing key keeps its position, a new key is appended),
which matches the iteration-order semantics the scripts rely on.
-/

namespace MonitoringLint

/-! ### Association lists (Python dict embedding) -/

/-- Lookup of the first binding of a key, mirroring Python dict lookup. -/
def alistFind {α : Type} (k : String) : List (String × α) → Option α
  | [] => none
  | (k1, v) :: rest => if k1 = k then some v else alistFind k rest

/-- Update the binding of `k` by `f`, inserting `f d` at the end when `k` is
absent.  This is the composite of the `if k not in d: d[k] = ...` and
`d[k] = f(d[k])` idioms of the Python sources. -/
def alistModify {α : Type} (k : String) (d : α) (f : α → α) :
    List (String × α) → List (String × α)
  | [] => [(k, f d)]
  | (k1, v) :: rest =>
      if k1 = k then (k1, f v) :: rest else (k1, v) :: alistModify k d f rest

/-! ### Character-level pattern matching

The heuristics of the sources are three `re` patterns over the compiled SQL
text.  They are embedded at the character level with Python `re` semantics:
word characters are ASCII alphanumerics plus underscore, a word boundary
separates a word and a non-word position, `.` matches any character except a
newline, `\s` matches ASCII whitespace, and IGNORECASE folds ASCII case. -/

/-- Word characters of the `\w` class over ASCII input. -/
def isWordChar (c : Char) : Bool := c.isAlphanum || c == '_'

/-- Whitespace characters of the `\s` class over ASCII input. -/
def isSpaceChar (c : Char) : Bool :=
  c == ' ' || c == '\t' || c == '\n' || c == '\r' || c == '\x0b' || c == '\x0c'

/-- Whether the character at position `i` exists and is a word character. -/
def isWordAt (s : List Char) (i : Nat) : Bool :=
  match s.get? i with
  | some c => isWordChar c
  | none => false

/-- Word boundary at position `i`, in the manner of the regex `\b` anchor. -/
def boundaryAt (s : List Char) (i : Nat) : Bool :=
  (if i = 0 then false else isWordAt s (i - 1)) != isWordAt s i

/-- Character comparison, optionally ASCII-case-insensitive. -/
def charMatch (ci : Bool) (a b : Char) : Bool :=
  if ci then a.toLower == b.toLower else a == b

/-- Literal match of `w` starting at position `i` of `s`. -/
def litAt (ci : Bool) (s : List Char) : Nat → List Char → Bool
  | _, [] => true
  | i, c :: rest =>
      match s.get? i with
      | some a => charMatch ci a c && litAt ci s (i + 1) rest
      | none => false

/-- Whole-word match of `w` at position `i`: the literal surrounded by word
boundaries, as in the pattern fragment `\b w \b`. -/
def wordLitAt (ci : Bool) (s : List Char) (i : Nat) (w : List Char) : Bool :=
  boundaryAt s i && litAt ci s i w && boundaryAt s (i + w.length)

/-- Every position in `[i, j)` holds a whitespace character. -/
def allSpaceSeg (s : List Char) (i j : Nat) : Bool :=
  (List.range' i (j - i)).all fun k =>
    match s.get? k with
    | some c => isSpaceChar c
    | none => false

/-- Every position in `[i, j)` holds a character other than a newline, the
segment a `.*` fragment may consume. -/
def noNLSeg (s : List Char) (i j : Nat) : Bool :=
  (List.range' i (j - i)).all fun k =>
    match s.get? k with
    | some c => c != '\n'
    | none => false

/-- Presence gate of both extractors: the case-sensitive search for the
pattern `\b col \b` anywhere in the compiled text. -/
def containsWordCS (s w : List Char) : Bool :=
  (List.range (s.length + 1)).any fun i => wordLitAt false s i w

/-- Assignment heuristic of both extractors: the IGNORECASE search for
`\b model_col \s*=.* \b col \b` in the compiled text (`.` does not cross a
newline, `\s` may). -/
def colUsageHit (s mcol col : List Char) : Bool :=
  (List.range (s.length + 1)).any fun i =>
    boundaryAt s i && litAt true s i mcol &&
      ((List.range' (i + mcol.length) (s.length - (i + mcol.length))).any fun e =>
        allSpaceSeg s (i + mcol.length) e && (s.get? e == some '=') &&
          ((List.range' (e + 1) (s.length - e)).any fun k =>
            noNLSeg s (e + 1) k && wordLitAt true s k col))

/-- Split of the fragment `\s*.*` between positions `j` and `q`: a whitespace
prefix followed by a newline-free tail. -/
def gapOkSeg (s : List Char) (j q : Nat) : Bool :=
  (List.range' j (q + 1 - j)).any fun t => allSpaceSeg s j t && noNLSeg s t q

/-- Tail of the aliasing pattern after the upstream column: the fragment
`.* \s+ as \s+ \b model_col \b` starting at position `q1`. -/
def aliasTail (s : List Char) (q1 : Nat) (mcol : List Char) : Bool :=
  (List.range (s.length + 1)).any fun r =>
    litAt true s r [ 'a', 's' ] &&
      ((List.range' q1 (r - q1)).any fun t =>
        noNLSeg s q1 t && decide (t < r) && allSpaceSeg s t r) &&
      ((List.range' (r + 3) (s.length + 1 - (r + 3))).any fun k =>
        allSpaceSeg s (r + 2) k && wordLitAt true s k mcol)

/-- Aliasing heuristic of both extractors: the IGNORECASE search for
`(?:select|,) \s*.* \b col \b .* \s+ as \s+ \b model_col \b`. -/
def colInSelectHit (s col mcol : List Char) : Bool :=
  (List.range (s.length + 1)).any fun i =>
    ((litAt true s i [ 's', 'e', 'l', 'e', 'c', 't' ] &&
        ((List.range' (i + 6) (s.length + 1 - (i + 6))).any fun q =>
          gapOkSeg s (i + 6) q && wordLitAt true s q col &&
            aliasTail s (q + col.length) mcol)) ||
      ((s.get? i == some ',') &&
        ((List.range' (i + 1) (s.length + 1 - (i + 1))).any fun q =>
          gapOkSeg s (i + 1) q && wordLitAt true s q col &&
            aliasTail s (q + col.length) mcol)))

/-- Disjunction of the two per-pair heuristics, in source order: the
assignment pattern, then the aliasing pattern. -/
def patternsHit (sql : List Char) (modelCol col : String) : Bool :=
  colUsageHit sql modelCol.toList col.toList ||
    colInSelectHit sql col.toList modelCol.toList

/-! ### Data model -/

/-- Manifest node as consumed by both extractors: resource kind, compiled
query text (empty when absent), declared dependency identifiers. -/
structure ModelNode where
  resource_type : String
  compiled_sql : String
  depends_on : List String
deriving DecidableEq

/-- Catalog node as consumed by both extractors: entity kind from
`metadata.type`, and the ordered column names. -/
structure CatalogNode where
  type : String
  columns : List String
deriving DecidableEq

/-- Upstream-model to upstream-column-list mapping of one column. -/
abbrev UpMap := List (String × List String)

/-- Column to upstream mapping of one model. -/
abbrev ColMap := List (String × UpMap)

/-- Column lineage graph: model to column to upstream model to upstream
columns, exactly the nesting of the Python dictionaries. -/
abbrev Graph := List (String × ColMap)

/-- Column catalog restricted to table/view entries, as built by the
`model_columns` loop shared by both extractors. -/
def buildModelColumns (catalog : List (String × CatalogNode)) :
    List (String × List String) :=
  catalog.foldl
    (fun mc e =>
      if e.2.type = "table" ∨ e.2.type = "view" then
        alistModify e.1 [] (fun _ => e.2.columns) mc
      else mc)
    []

/-! ### Edge inference engine

Both sources share the same nested loops; they differ only in two points
captured by the `flat` flag: the flat extractor materialises the model key as
soon as the presence gate fires and appends upstream columns without a
duplicate check, while the targeted extractor creates keys only on a pattern
hit and skips a column already recorded. -/

/-- Record one inferred pair in the graph.  `flat` selects the unconditional
append of all_lineage.py; otherwise the duplicate-checked append of
single_model.py. -/
def pushEdge (flat : Bool) (g : Graph) (m mc u col : String) : Graph :=
  alistModify m []
    (fun cm =>
      alistModify mc []
        (fun um =>
          alistModify u []
            (fun l => if !flat && decide (col ∈ l) then l else l ++ [col]) um)
        cm)
    g

/-- Materialise the key of model `m` with an empty column map when absent,
the `if node_name not in column_lineage` step of the flat extractor. -/
def ensureModel (g : Graph) (m : String) : Graph :=
  alistModify m [] id g

/-- Inner loop over the model's own catalog columns for one upstream column
that passed the presence gate. -/
def modelColsFold (flat : Bool) (sql : List Char) (m u col : String)
    (modelCols : List String) (g : Graph) : Graph :=
  modelCols.foldl
    (fun g2 mc => if patternsHit sql mc col then pushEdge flat g2 m mc u col else g2)
    g

/-- Per-upstream-column step: the presence gate, then (flat mode only) the
model-key materialisation, then the own-column loop. -/
def colStep (flat : Bool) (sql : List Char) (m u : String)
    (modelCols : List String) (g : Graph) (col : String) : Graph :=
  if containsWordCS sql col.toList then
    modelColsFold flat sql m u col modelCols (if flat then ensureModel g m else g)
  else g

/-- Loop over the catalog columns of one dependency. -/
def depColsFold (flat : Bool) (sql : List Char) (m u : String)
    (modelCols depCols : List String) (g : Graph) : Graph :=
  depCols.foldl (colStep flat sql m u modelCols) g

/-- Loop over the declared dependencies of one model; a dependency without a
catalog entry is skipped. -/
def depsFold (flat : Bool) (mcVal : List (String × List String))
    (sql : List Char) (m : String) (modelCols : List String)
    (deps : List String) (g : Graph) : Graph :=
  deps.foldl
    (fun g2 dep =>
      match alistFind dep mcVal with
      | none => g2
      | some depCols => depColsFold flat sql m dep modelCols depCols g2)
    g

/-- Per-manifest-node step: only resource type `model`, with non-empty
compiled text and a catalog entry, contributes. -/
def nodeStep (flat : Bool) (mcVal : List (String × List String))
    (g : Graph) (e : String × ModelNode) : Graph :=
  if e.2.resource_type = "model" then
    if e.2.compiled_sql = "" then g
    else
      match alistFind e.1 mcVal with
      | none => g
      | some modelCols =>
          depsFold flat mcVal e.2.compiled_sql.toList e.1 modelCols
            e.2.depends_on g
  else g

/-- Shared edge inference engine over the whole manifest. -/
def inferGraph (flat : Bool) (nodes : List (String × ModelNode))
    (catalog : List (String × CatalogNode)) : Graph :=
  nodes.foldl (nodeStep flat (buildModelColumns catalog)) []

/-- Column lineage graph of the flat extractor (all_lineage.py,
`column_lineage`). -/
def extract_column_lineage (nodes : List (String × ModelNode))
    (catalog : List (String × CatalogNode)) : Graph :=
  inferGraph true nodes catalog

/-- Column lineage graph of the targeted extractor (single_model.py,
`all_column_lineage`). -/
def all_column_lineage (nodes : List (String × ModelNode))
    (catalog : List (String × CatalogNode)) : Graph :=
  inferGraph false nodes catalog

/-- Upstream-column list stored in the graph under the chain of keys
`m`, `c`, `u`; the empty list when any key is absent. -/
def listAt (g : Graph) (m c u : String) : List String :=
  (alistFind u ((alistFind c ((alistFind m g).getD [])).getD [])).getD []

/-- Membership of one edge `(m, c, u, uc)` in the graph: `uc` occurs in the
list reached through the key chain `m`, `c`, `u`. -/
def edgeMem (g : Graph) (m c u uc : String) : Bool :=
  decide (uc ∈ listAt g m c u)

/-- Duplicate-freedom of every upstream-column list of the graph. -/
def AllNodup (g : Graph) : Prop :=
  ∀ m c u, (listAt g m c u).Nodup

/-- Anchoring conditions under which the engine records the edge
`(m1, c1, u1, uc1)` while processing manifest entry `e`: the resource is a
model with compiled text, both endpoints hold catalog columns, the upstream
model is a declared dependency, and the presence gate and one of the two
patterns fire. -/
def NodeCond (mcVal : List (String × List String)) (e : String × ModelNode)
    (m1 c1 u1 uc1 : String) : Prop :=
  m1 = e.1 ∧ e.2.resource_type = "model" ∧ e.2.compiled_sql ≠ "" ∧
    (∃ mcols, alistFind e.1 mcVal = some mcols ∧ c1 ∈ mcols) ∧
    u1 ∈ e.2.depends_on ∧
    (∃ dcols, alistFind u1 mcVal = some dcols ∧ uc1 ∈ dcols) ∧
    containsWordCS e.2.compiled_sql.toList uc1.toList = true ∧
    patternsHit e.2.compiled_sql.toList c1 uc1 = true

/-! ### Closure resolver

single_model.py resolves the transitive upstream and downstream closures by
recursion with a shared mutable visited set.  The embedding threads the
visited set explicitly (each call returns the updated set, siblings receive
the previous sibling's set) and makes the recursion structural on a fuel
argument; the fuel is irrelevant from the bound proved below on, which is
the termination statement. -/

/-- Pair of a model identifier and a column name. -/
abbrev SP := String × String

/-- Nested closure: related model to related column to sub-closure. -/
inductive Closure where
  | mk : List (String × List (String × Closure)) → Closure

/-- Entries of a closure. -/
def Closure.entries : Closure → List (String × List (String × Closure))
  | .mk es => es

/-- Direct upstream entries of `(node, column)` in the graph; the empty list
when either key is absent. -/
def lookup2 (g : Graph) (node column : String) : UpMap :=
  match alistFind node g with
  | none => []
  | some cm =>
      match alistFind column cm with
      | none => []
      | some um => um

/-- Result insertion of both resolvers: materialise the related-model key,
then assign the related-column key to the sub-closure. -/
def closPut (es : List (String × List (String × Closure))) (u uc : String)
    (sub : Closure) : List (String × List (String × Closure)) :=
  alistModify u [] (fun inner => alistModify uc (Closure.mk []) (fun _ => sub) inner) es

/-- Accumulator of the resolvers: result entries plus the shared visited
set, embedded as a list queried with membership. -/
abbrev UpAcc := List (String × List (String × Closure)) × List SP

/-- Per-upstream-column step of the upstream resolver. -/
def upColStep (rec : SP → List SP → Closure × List SP) (u : String)
    (acc : UpAcc) (uc : String) : UpAcc :=
  let r := rec (u, uc) acc.2
  (closPut acc.1 u uc r.1, r.2)

/-- Per-upstream-model step of the upstream resolver. -/
def upEntryStep (rec : SP → List SP → Closure × List SP) (acc : UpAcc)
    (e : String × List String) : UpAcc :=
  e.2.foldl (upColStep rec e.1) acc

/-- One unfolding of get_upstream_lineage: the visited check, the insertion
of the pair into the visited set, then the loop over the direct upstream
entries with recursive call `rec`. -/
def getUpStep (g : Graph) (rec : SP → List SP → Closure × List SP)
    (p : SP) (v : List SP) : Closure × List SP :=
  if p ∈ v then (Closure.mk [], v)
  else
    let r := (lookup2 g p.1 p.2).foldl (upEntryStep rec) ([], p :: v)
    (Closure.mk r.1, r.2)

/-- Fuel-indexed upstream resolver. -/
def getUpF (g : Graph) : Nat → SP → List SP → Closure × List SP
  | 0 => fun _ v => (Closure.mk [], v)
  | n + 1 => getUpStep g (getUpF g n)

/-- All pairs occurring on the upstream side of some edge of the graph. -/
def upPairsList (g : Graph) : List SP :=
  g.flatMap fun me => me.2.flatMap fun ce => ce.2.flatMap fun ue => ue.2.map fun uc => (ue.1, uc)

/-- Fuel sufficient for the upstream resolver on `g`. -/
def upBound (g : Graph) : Nat := (upPairsList g).toFinset.card + 2

/-- Upstream closure resolver (get_upstream_lineage of single_model.py),
rooted at `(node, column)` with visited set `v`. -/
def get_upstream_lineage (g : Graph) (node column : String) (v : List SP) :
    Closure × List SP :=
  getUpF g (upBound g) (node, column) v

/-- Recording step of the downstream resolver: a downstream column already
present in the result is skipped, otherwise the resolver recurses on it and
assigns the sub-closure. -/
def dnStep (rec : SP → List SP → Closure × List SP) (acc : UpAcc)
    (dn dc : String) : UpAcc :=
  let inner := (alistFind dn acc.1).getD []
  if (alistFind dc inner).isSome then acc
  else
    let r := rec (dn, dc) acc.2
    (closPut acc.1 dn dc r.1, r.2)

/-- Per-upstream-entry step of the downstream scan: the edge matches when
its upstream side equals the rooted pair. -/
def downUpsStep (rec : SP → List SP → Closure × List SP) (p : SP)
    (dn dc : String) (acc : UpAcc) (ue : String × List String) : UpAcc :=
  if ue.1 = p.1 ∧ p.2 ∈ ue.2 then dnStep rec acc dn dc else acc

/-- Per-column step of the downstream scan. -/
def downColStep (rec : SP → List SP → Closure × List SP) (p : SP)
    (dn : String) (acc : UpAcc) (ce : String × UpMap) : UpAcc :=
  ce.2.foldl (downUpsStep rec p dn ce.1) acc

/-- Per-model step of the downstream scan. -/
def downModelStep (rec : SP → List SP → Closure × List SP) (p : SP)
    (acc : UpAcc) (me : String × ColMap) : UpAcc :=
  me.2.foldl (downColStep rec p me.1) acc

/-- One unfolding of get_downstream_lineage: the visited check, then the
graph-wide scan for edges whose upstream side is the rooted pair. -/
def getDownStep (g : Graph) (rec : SP → List SP → Closure × List SP)
    (p : SP) (v : List SP) : Closure × List SP :=
  if p ∈ v then (Closure.mk [], v)
  else
    let r := g.foldl (downModelStep rec p) ([], p :: v)
    (Closure.mk r.1, r.2)

/-- Fuel-indexed downstream resolver. -/
def getDownF (g : Graph) : Nat → SP → List SP → Closure × List SP
  | 0 => fun _ v => (Closure.mk [], v)
  | n + 1 => getDownStep g (getDownF g n)

/-- All key pairs of the graph, the candidates of the downstream scan. -/
def downPairsList (g : Graph) : List SP :=
  g.flatMap fun me => me.2.map fun ce => (me.1, ce.1)

/-- Fuel sufficient for the downstream resolver on `g`. -/
def downBound (g : Graph) : Nat := (downPairsList g).toFinset.card + 2

/-- Downstream closure resolver (get_downstream_lineage of single_model.py),
rooted at `(node, column)` with visited set `v`. -/
def get_downstream_lineage (g : Graph) (node column : String) (v : List SP) :
    Closure × List SP :=
  getDownF g (downBound g) (node, column) v

/-- Remaining measure of the upstream resolver. -/
def measUp (g : Graph) (p : SP) (v : List SP) : Nat :=
  ((insert p (upPairsList g).toFinset) \ v.toFinset).card

/-- Remaining measure of the downstream resolver. -/
def measDown (g : Graph) (p : SP) (v : List SP) : Nat :=
  ((insert p (downPairsList g).toFinset) \ v.toFinset).card

/-- Occurrence of a pair anywhere in a closure: at the top level, or inside
a nested sub-closure. -/
inductive OccursIn (p : SP) : Closure → Prop where
  | top : ∀ (es : List (String × List (String × Closure)))
      (l : List (String × Closure)) (sub : Closure),
      (p.1, l) ∈ es → (p.2, sub) ∈ l → OccursIn p (Closure.mk es)
  | nest : ∀ (es : List (String × List (String × Closure)))
      (m : String) (l : List (String × Closure)) (c : String) (sub : Closure),
      (m, l) ∈ es → (c, sub) ∈ l → OccursIn p sub → OccursIn p (Closure.mk es)

/-- Presence of the key pair `q` at the top level of result entries. -/
def pairPresent (es : List (String × List (String × Closure))) (q : SP) : Prop :=
  ∃ inner sub, alistFind q.1 es = some inner ∧ alistFind q.2 inner = some sub

/-! ### Targeted run and export -/

/-- Dot-separated segments of an identifier, the `split` on a dot. -/
def splitSegs : List Char → List (List Char)
  | [] => [[]]
  | c :: rest =>
      let r := splitSegs rest
      if c = '.' then [] :: r
      else
        match r with
        | [] => [[c]]
        | seg :: segs => (c :: seg) :: segs

/-- Last dot-separated segment of an identifier, the `split('.')[-1]` of the
sources. -/
def lastSeg (s : String) : String :=
  String.mk ((splitSegs s.toList).getLastD [])

/-- Resolution of the target model over the manifest nodes in iteration
order, matching by last dot-separated segment. -/
def findTargetNode (nodes : List (String × ModelNode)) (t : String) :
    Option String :=
  (nodes.find? fun e => lastSeg e.1 == t).map fun e => e.1

/-- Lineage document: target model to column to closure. -/
abbrev LinDoc := List (String × List (String × Closure))

/-- Result of extract_model_column_lineage: the empty dictionary of the
missing-target early return, or the upstream/downstream document pair. -/
inductive ExtractResult where
  | empty : ExtractResult
  | full (upstream downstream : LinDoc) : ExtractResult

/-- Upstream document rooted at the resolved target: one closure per catalog
column, each resolved with a fresh visited set. -/
def buildUpDoc (g : Graph) (mcVal : List (String × List String))
    (tn : String) : LinDoc :=
  match alistFind tn mcVal with
  | none => []
  | some cols =>
      [(tn, cols.map fun col => (col, (get_upstream_lineage g tn col []).1))]

/-- Downstream document rooted at the resolved target. -/
def buildDownDoc (g : Graph) (mcVal : List (String × List String))
    (tn : String) : LinDoc :=
  match alistFind tn mcVal with
  | none => []
  | some cols =>
      [(tn, cols.map fun col => (col, (get_downstream_lineage g tn col []).1))]

/-- Targeted extraction (extract_model_column_lineage of single_model.py),
restricted to its in-memory result: when the requested non-empty target
matches no manifest node by last segment, the run reports the condition and
returns the empty dictionary; otherwise it builds the one-hop graph and the
two closure documents. -/
def extract_model_column_lineage (nodes : List (String × ModelNode))
    (catalog : List (String × CatalogNode)) (target : String) : ExtractResult :=
  if target = "" then ExtractResult.full [] []
  else
    match findTargetNode nodes target with
    | none => ExtractResult.empty
    | some tn =>
        ExtractResult.full
          (buildUpDoc (all_column_lineage nodes catalog) (buildModelColumns catalog) tn)
          (buildDownDoc (all_column_lineage nodes catalog) (buildModelColumns catalog) tn)

/-- Flattened tabular row without depth. -/
abbrev Row4 := String × String × String × String

/-- Flattened tabular row with the trailing depth column. -/
abbrev Row5 := String × String × String × String × Nat

/-- Four-level lookup into a lineage document, the source's indexing chain
`lineage[model][column][related_model][related_column]`; `none` is the
KeyError failure. -/
def lookupLin4 (L : LinDoc) (m c um uc : String) : Option Closure :=
  match alistFind m L with
  | none => none
  | some cols =>
      match alistFind c cols with
      | none => none
      | some cl =>
          match alistFind um cl.entries with
          | none => none
          | some inner => alistFind uc inner

/-- One unfolding of flatten_upstream (identical in shape to
flatten_downstream): emit a row per direct pair, then look the pair up in
the top-level document — the global lookup of the source, which raises
KeyError (`none` here) whenever recursion reaches depth two — and recurse on
a non-empty result. -/
def flattenStep (L : LinDoc)
    (rec : String → String → List (String × List (String × Closure)) →
      Option (List Row4))
    (model column : String)
    (ups : List (String × List (String × Closure))) : Option (List Row4) :=
  ups.foldlM
    (fun rows e =>
      e.2.foldlM
        (fun rows2 pe =>
          let row : Row4 := (lastSeg model, column, lastSeg e.1, pe.1)
          match lookupLin4 L model column e.1 pe.1 with
          | none => none
          | some next =>
              if next.entries.isEmpty then some (rows2 ++ [row])
              else
                match rec e.1 pe.1 next.entries with
                | none => none
                | some sub => some (rows2 ++ [row] ++ sub))
        rows)
    []

/-- Fuel-indexed flattener. -/
def flattenF (L : LinDoc) :
    Nat → String → String → List (String × List (String × Closure)) →
      Option (List Row4)
  | 0 => fun _ _ _ => none
  | n + 1 => flattenStep L (flattenF L n)

/-- Rows of one flattened CSV: the double loop of the export over the
document, flattening at each root column. -/
def csvRows (L : LinDoc) (fuel : Nat) : Option (List Row4) :=
  L.foldlM
    (fun rows me =>
      me.2.foldlM
        (fun rows2 ce =>
          match flattenF L fuel me.1 ce.1 ce.2.entries with
          | none => none
          | some sub => some (rows2 ++ sub))
        rows)
    []

/-- One unfolding of the never-invoked process_upstream / process_downstream
writer of write_upstream_csv / write_downstream_csv: one row carrying the
current depth, then recursion at depth + 1 over the pairs of the looked-up
sub-closure. -/
def processStepD (L : LinDoc)
    (rec : String → String → String → String → Nat → Option (List Row5))
    (model column um uc : String) (depth : Nat) : Option (List Row5) :=
  match lookupLin4 L model column um uc with
  | none => none
  | some next =>
      next.entries.foldlM
        (fun rows ne =>
          ne.2.foldlM
            (fun rows2 pe =>
              match rec um uc ne.1 pe.1 (depth + 1) with
              | none => none
              | some sub => some (rows2 ++ sub))
            rows)
        [(lastSeg model, column, lastSeg um, uc, depth)]

/-- Fuel-indexed depth-tagged writer. -/
def processDF (L : LinDoc) :
    Nat → String → String → String → String → Nat → Option (List Row5)
  | 0 => fun _ _ _ _ _ => none
  | n + 1 => processStepD L (processDF L n)

/-- Rows of the never-invoked depth-tagged CSV, rooted at depth 1 for every
direct pair of the document. -/
def depthCsvRows (L : LinDoc) (fuel : Nat) : Option (List Row5) :=
  L.foldlM
    (fun rows me =>
      me.2.foldlM
        (fun rows2 ce =>
          ce.2.entries.foldlM
            (fun rows3 ue =>
              ue.2.foldlM
                (fun rows4 pe =>
                  match processDF L fuel me.1 ce.1 ue.1 pe.1 1 with
                  | none => none
                  | some sub => some (rows4 ++ sub))
                rows3)
            rows2)
        rows)
    []

/-- Content of one written artifact. -/
inductive FileContent where
  | doc (d : LinDoc)
  | table (rows : List Row4)

/-- Tabular test of an artifact. -/
def FileContent.isTabular : FileContent → Bool
  | .doc _ => false
  | .table _ => true

/-- Files written by a targeted run, in write order: the two structured
documents, then the two flattened tabular files produced by
flatten_upstream and flatten_downstream.  The depth-tagged writers
write_upstream_csv and write_downstream_csv are defined in the source but
never invoked, so none of their artifacts appears.  `none` models a run
that writes nothing (missing target) or fails during export. -/
def targetedFiles (nodes : List (String × ModelNode))
    (catalog : List (String × CatalogNode)) (target : String) (fuel : Nat) :
    Option (List (String × FileContent)) :=
  match extract_model_column_lineage nodes catalog target with
  | .empty => none
  | .full up down =>
      let name := if target = "" then "all_models" else target
      match csvRows up fuel with
      | none => none
      | some rows1 =>
          match csvRows down fuel with
          | none => none
          | some rows2 =>
              some [(name ++ "_upstream_lineage.json", FileContent.doc up),
                    (name ++ "_downstream_lineage.json", FileContent.doc down),
                    (name ++ "_upstream_lineage.csv", FileContent.table rows1),
                    (name ++ "_downstream_lineage.csv", FileContent.table rows2)]

/-! ### Concrete scenarios -/

/-- Cyclic two-node, two-column graph A.x upstream of B.y upstream of A.x. -/
def cycleGraph : Graph :=
  [("A", [("x", [("B", ["y"])])]), ("B", [("y", [("A", ["x"])])])]

/-- Manifest of the unaliased-passthrough scenario. -/
def c4nodes : List (String × ModelNode) :=
  [("order_summary",
    ⟨"model", "select order_id, sum(amount) as total from orders group by order_id",
     ["orders"]⟩)]

/-- Catalog of the unaliased-passthrough scenario. -/
def c4catalog : List (String × CatalogNode) :=
  [("orders", ⟨"table", ["order_id", "customer_id"]⟩),
   ("order_summary", ⟨"table", ["order_id", "total"]⟩)]

/-- Manifest of the aliasing scenario. -/
def c5nodes : List (String × ModelNode) :=
  [("order_summary",
    ⟨"model", "select id as order_id, amount as total from raw_orders",
     ["raw_orders"]⟩)]

/-- Catalog of the aliasing scenario. -/
def c5catalog : List (String × CatalogNode) :=
  [("raw_orders", ⟨"table", ["id", "amount"]⟩),
   ("order_summary", ⟨"table", ["order_id", "total"]⟩)]

/-- Manifest with a repeated dependency identifier. -/
def c6nodes : List (String × ModelNode) :=
  [("m", ⟨"model", "select x as a", ["u", "u"]⟩)]

/-- Catalog for the repeated-dependency manifest. -/
def c6catalog : List (String × CatalogNode) :=
  [("m", ⟨"table", ["a"]⟩), ("u", ⟨"table", ["x"]⟩)]

/-- Manifest whose model passes the presence gate without any pattern hit. -/
def c7nodes : List (String × ModelNode) :=
  [("m", ⟨"model", "select x from u", ["u"]⟩)]

/-- Catalog for the gate-only manifest. -/
def c7catalog : List (String × CatalogNode) :=
  [("m", ⟨"table", ["y"]⟩), ("u", ⟨"table", ["x"]⟩)]

/-- Document for the depth-tagged-writer witness. -/
def depthDemoDoc : LinDoc :=
  [("t", [("c", Closure.mk [("u", [("x", Closure.mk [])])])])]

/-- Files of the targeted run on the aliasing scenario. -/
def c8files : List (String × FileContent) :=
  (targetedFiles c5nodes c5catalog "order_summary" 3).getD []

set_option maxRecDepth 40000

/-- C4: counterexample.  The claim expects no edge at all for the compiled
text `select order_id, sum(amount) as total from orders group by order_id`,
but the aliasing pattern matches for the pair (total, order_id) — `order_id`
occurs between `select` and ` as total` — so both extractors do record an
edge for order_summary. -/
theorem C4_counterexample :
    edgeMem (extract_column_lineage c4nodes c4catalog)
        "order_summary" "total" "orders" "order_id" = true ∧
      edgeMem (all_column_lineage c4nodes c4catalog)
        "order_summary" "total" "orders" "order_id" = true := by
  constructor <;> decide

/-- C4: amended claim.  On the unaliased-passthrough scenario both extractors
record exactly one edge, order_summary.total upstream of orders.order_id (a
false positive of the aliasing pattern); in particular no edge is recorded
for the passthrough column order_id, which is the documented blind spot. -/
theorem C4_amended :
    extract_column_lineage c4nodes c4catalog =
        [("order_summary", [("total", [("orders", ["order_id"])])])] ∧
      all_column_lineage c4nodes c4catalog =
        [("order_summary", [("total", [("orders", ["order_id"])])])] := by
  constructor <;> decide

/-- C5: counterexample.  Besides the two expected aliasing edges, the
aliasing pattern also fires for the pair (total, id) — `id` occurs between
`select` and ` as total` — so an edge the claim excludes is recorded by both
extractors. -/
theorem C5_counterexample :
    edgeMem (extract_column_lineage c5nodes c5catalog)
        "order_summary" "total" "raw_orders" "id" = true ∧
      edgeMem (all_column_lineage c5nodes c5catalog)
        "order_summary" "total" "raw_orders" "id" = true := by
  constructor <;> decide

/-- C5: amended claim.  On the aliasing scenario both extractors produce the
two expected edges order_summary.order_id from raw_orders.id and
order_summary.total from raw_orders.amount, plus the false-positive edge
order_summary.total from raw_orders.id, and nothing else. -/
theorem C5_amended :
    extract_column_lineage c5nodes c5catalog =
        [("order_summary",
          [("order_id", [("raw_orders", ["id"])]),
           ("total", [("raw_orders", ["id", "amount"])])])] ∧
      all_column_lineage c5nodes c5catalog =
        [("order_summary",
          [("order_id", [("raw_orders", ["id"])]),
           ("total", [("raw_orders", ["id", "amount"])])])] := by
  constructor <;> decide

/-! ### Association-list lemmas -/

theorem alistFind_modify {α : Type} (k k1 : String) (d : α) (f : α → α)
    (l : List (String × α)) :
    alistFind k (alistModify k1 d f l) =
      if k = k1 then some (f ((alistFind k1 l).getD d)) else alistFind k l := by
  induction l with
  | nil =>
      by_cases h : k = k1
      · subst h; simp [alistModify, alistFind]
      · have h1 : ¬ k1 = k := fun h2 => h h2.symm
        simp [alistModify, alistFind, h, h1]
  | cons hd tl ih =>
      obtain ⟨k2, v⟩ := hd
      by_cases h2 : k2 = k1
      · subst h2
        by_cases h3 : k = k2
        · subst h3; simp [alistModify, alistFind]
        · have h4 : ¬ k2 = k := fun h5 => h3 h5.symm
          simp [alistModify, alistFind, h3, h4]
      · by_cases h3 : k2 = k
        · subst h3
          have h4 : ¬ k2 = k1 := h2
          simp [alistModify, alistFind, h4, fun h5 => h4 h5]
        · have h5 : ¬ k1 = k2 := fun h6 => h2 h6.symm
          simp [alistModify, alistFind, h2, h3, h5, ih]

theorem alistFind_mem {α : Type} {k : String} {v : α} {l : List (String × α)}
    (h : alistFind k l = some v) : (k, v) ∈ l := by
  induction l with
  | nil => simp [alistFind] at h
  | cons hd tl ih =>
      obtain ⟨k1, v1⟩ := hd
      simp only [alistFind] at h
      split at h
      · rename_i h2
        cases h
        subst h2
        exact List.mem_cons_self _ _
      · exact List.mem_cons_of_mem _ (ih h)

/-! ### Characterization of the recorded edges -/

theorem listAt_pushEdge (flat : Bool) (g : Graph) (m mc u col m1 c1 u1 : String) :
    listAt (pushEdge flat g m mc u col) m1 c1 u1 =
      if m1 = m ∧ c1 = mc ∧ u1 = u then
        (if !flat && decide (col ∈ listAt g m mc u) then listAt g m mc u
         else listAt g m mc u ++ [col])
      else listAt g m1 c1 u1 := by
  by_cases h1 : m1 = m
  · subst h1
    by_cases h2 : c1 = mc
    · subst h2
      by_cases h3 : u1 = u
      · subst h3
        simp [listAt, pushEdge, alistFind_modify]
      · simp [listAt, pushEdge, alistFind_modify, h3]
    · simp [listAt, pushEdge, alistFind_modify, h2]
  · simp [listAt, pushEdge, alistFind_modify, h1]

theorem listAt_ensureModel (g : Graph) (m m1 c1 u1 : String) :
    listAt (ensureModel g m) m1 c1 u1 = listAt g m1 c1 u1 := by
  unfold ensureModel listAt
  rw [alistFind_modify]
  by_cases h1 : m1 = m
  · subst h1
    simp only [if_pos rfl, id_eq, Option.getD_some]
    cases alistFind m1 g <;> simp
  · simp [h1]

theorem mem_pushList (flat : Bool) (l : List String) (col x : String) :
    (x ∈ (if !flat && decide (col ∈ l) then l else l ++ [col])) ↔
      (x ∈ l ∨ x = col) := by
  split
  · rename_i hb
    have hc : col ∈ l := of_decide_eq_true ((Bool.and_eq_true _ _).mp hb).2
    constructor
    · exact Or.inl
    · rintro (h | h)
      · exact h
      · rw [h]; exact hc
  · simp [List.mem_append]

theorem edgeMem_pushEdge (flat : Bool) (g : Graph) (m mc u col m1 c1 u1 uc1 : String) :
    edgeMem (pushEdge flat g m mc u col) m1 c1 u1 uc1 = true ↔
      (edgeMem g m1 c1 u1 uc1 = true ∨ (m1 = m ∧ c1 = mc ∧ u1 = u ∧ uc1 = col)) := by
  simp only [edgeMem, decide_eq_true_eq, listAt_pushEdge]
  by_cases h : m1 = m ∧ c1 = mc ∧ u1 = u
  · rw [if_pos h, mem_pushList]
    obtain ⟨h1, h2, h3⟩ := h
    subst h1; subst h2; subst h3
    tauto
  · rw [if_neg h]
    tauto

theorem edgeMem_ensureModel (g : Graph) (m m1 c1 u1 uc1 : String) :
    edgeMem (ensureModel g m) m1 c1 u1 uc1 = edgeMem g m1 c1 u1 uc1 := by
  simp [edgeMem, listAt_ensureModel]

theorem edgeMem_modelColsFold (flat : Bool) (sql : List Char) (m u col : String)
    (mcs : List String) (m1 c1 u1 uc1 : String) : ∀ g : Graph,
    edgeMem (modelColsFold flat sql m u col mcs g) m1 c1 u1 uc1 = true ↔
      (edgeMem g m1 c1 u1 uc1 = true ∨
        (m1 = m ∧ u1 = u ∧ uc1 = col ∧ c1 ∈ mcs ∧ patternsHit sql c1 col = true)) := by
  induction mcs with
  | nil => intro g; simp [modelColsFold]
  | cons mc mcs ih =>
      intro g
      have hstep : modelColsFold flat sql m u col (mc :: mcs) g =
          modelColsFold flat sql m u col mcs
            (if patternsHit sql mc col then pushEdge flat g m mc u col else g) := rfl
      rw [hstep, ih]
      by_cases hhit : patternsHit sql mc col = true
      · rw [if_pos hhit, edgeMem_pushEdge]
        constructor
        · rintro ((h | ⟨h1, h2, h3, h4⟩) | ⟨h1, h2, h3, h4, h5⟩)
          · exact Or.inl h
          · refine Or.inr ⟨h1, h3, h4, ?_, ?_⟩
            · rw [h2]; exact List.mem_cons_self _ _
            · rw [h2]; exact hhit
          · exact Or.inr ⟨h1, h2, h3, List.mem_cons_of_mem _ h4, h5⟩
        · rintro (h | ⟨h1, h2, h3, h4, h5⟩)
          · exact Or.inl (Or.inl h)
          · rcases List.mem_cons.mp h4 with h6 | h6
            · exact Or.inl (Or.inr ⟨h1, h6, h2, h3⟩)
            · exact Or.inr ⟨h1, h2, h3, h6, h5⟩
      · rw [if_neg hhit]
        constructor
        · rintro (h | ⟨h1, h2, h3, h4, h5⟩)
          · exact Or.inl h
          · exact Or.inr ⟨h1, h2, h3, List.mem_cons_of_mem _ h4, h5⟩
        · rintro (h | ⟨h1, h2, h3, h4, h5⟩)
          · exact Or.inl h
          · rcases List.mem_cons.mp h4 with h6 | h6
            · rw [h6] at h5; exact absurd h5 hhit
            · exact Or.inr ⟨h1, h2, h3, h6, h5⟩

theorem edgeMem_colStep (flat : Bool) (sql : List Char) (m u : String)
    (mcs : List String) (g : Graph) (col m1 c1 u1 uc1 : String) :
    edgeMem (colStep flat sql m u mcs g col) m1 c1 u1 uc1 = true ↔
      (edgeMem g m1 c1 u1 uc1 = true ∨
        (m1 = m ∧ u1 = u ∧ uc1 = col ∧ containsWordCS sql col.toList = true ∧
          c1 ∈ mcs ∧ patternsHit sql c1 col = true)) := by
  unfold colStep
  by_cases hg : containsWordCS sql col.toList = true
  · rw [if_pos hg, edgeMem_modelColsFold]
    have he : edgeMem (if flat then ensureModel g m else g) m1 c1 u1 uc1 =
        edgeMem g m1 c1 u1 uc1 := by
      cases flat with
      | false => rfl
      | true => exact edgeMem_ensureModel g m m1 c1 u1 uc1
    rw [he]
    constructor
    · rintro (h | ⟨h1, h2, h3, h4, h5⟩)
      · exact Or.inl h
      · exact Or.inr ⟨h1, h2, h3, hg, h4, h5⟩
    · rintro (h | ⟨h1, h2, h3, h4, h5, h6⟩)
      · exact Or.inl h
      · exact Or.inr ⟨h1, h2, h3, h5, h6⟩
  · rw [if_neg hg]
    constructor
    · exact Or.inl
    · rintro (h | ⟨h1, h2, h3, h4, h5, h6⟩)
      · exact h
      · exact absurd h4 hg

theorem edgeMem_depColsFold (flat : Bool) (sql : List Char) (m u : String)
    (mcs cols : List String) (m1 c1 u1 uc1 : String) : ∀ g : Graph,
    edgeMem (depColsFold flat sql m u mcs cols g) m1 c1 u1 uc1 = true ↔
      (edgeMem g m1 c1 u1 uc1 = true ∨
        (m1 = m ∧ u1 = u ∧ uc1 ∈ cols ∧ containsWordCS sql uc1.toList = true ∧
          c1 ∈ mcs ∧ patternsHit sql c1 uc1 = true)) := by
  induction cols with
  | nil => intro g; simp [depColsFold]
  | cons col cols ih =>
      intro g
      have hstep : depColsFold flat sql m u mcs (col :: cols) g =
          depColsFold flat sql m u mcs cols (colStep flat sql m u mcs g col) := rfl
      rw [hstep, ih, edgeMem_colStep]
      constructor
      · rintro ((h | ⟨h1, h2, h3, h4, h5, h6⟩) | ⟨h1, h2, h3, h4, h5, h6⟩)
        · exact Or.inl h
        · refine Or.inr ⟨h1, h2, ?_, ?_, h5, ?_⟩
          · rw [h3]; exact List.mem_cons_self _ _
          · rw [h3]; exact h4
          · rw [h3]; exact h6
        · exact Or.inr ⟨h1, h2, List.mem_cons_of_mem _ h3, h4, h5, h6⟩
      · rintro (h | ⟨h1, h2, h3, h4, h5, h6⟩)
        · exact Or.inl (Or.inl h)
        · rcases List.mem_cons.mp h3 with h7 | h7
          · refine Or.inl (Or.inr ⟨h1, h2, h7, ?_, h5, ?_⟩)
            · rw [← h7]; exact h4
            · rw [← h7]; exact h6
          · exact Or.inr ⟨h1, h2, h7, h4, h5, h6⟩

theorem edgeMem_depsFold (flat : Bool) (mcVal : List (String × List String))
    (sql : List Char) (m : String) (mcs : List String) (deps : List String)
    (m1 c1 u1 uc1 : String) : ∀ g : Graph,
    edgeMem (depsFold flat mcVal sql m mcs deps g) m1 c1 u1 uc1 = true ↔
      (edgeMem g m1 c1 u1 uc1 = true ∨
        (m1 = m ∧ u1 ∈ deps ∧
          (∃ dcols, alistFind u1 mcVal = some dcols ∧ uc1 ∈ dcols) ∧
          containsWordCS sql uc1.toList = true ∧
          c1 ∈ mcs ∧ patternsHit sql c1 uc1 = true)) := by
  induction deps with
  | nil => intro g; simp [depsFold]
  | cons dep deps ih =>
      intro g
      have hstep : depsFold flat mcVal sql m mcs (dep :: deps) g =
          depsFold flat mcVal sql m mcs deps
            (match alistFind dep mcVal with
             | none => g
             | some depCols => depColsFold flat sql m dep mcs depCols g) := rfl
      rw [hstep, ih]
      cases hfind : alistFind dep mcVal with
      | none =>
          simp only [hfind]
          constructor
          · rintro (h | ⟨h1, h2, h3, h4, h5, h6⟩)
            · exact Or.inl h
            · exact Or.inr ⟨h1, List.mem_cons_of_mem _ h2, h3, h4, h5, h6⟩
          · rintro (h | ⟨h1, h2, ⟨dcols, hd1, hd2⟩, h4, h5, h6⟩)
            · exact Or.inl h
            · rcases List.mem_cons.mp h2 with h7 | h7
              · rw [h7] at hd1
                rw [hd1] at hfind
                exact absurd hfind (by simp)
              · exact Or.inr ⟨h1, h7, ⟨dcols, hd1, hd2⟩, h4, h5, h6⟩
      | some depCols =>
          simp only [hfind]
          rw [edgeMem_depColsFold]
          constructor
          · rintro ((h | ⟨h1, h2, h3, h4, h5, h6⟩) | ⟨h1, h2, h3, h4, h5, h6⟩)
            · exact Or.inl h
            · refine Or.inr ⟨h1, ?_, ⟨depCols, ?_, h3⟩, h4, h5, h6⟩
              · rw [h2]; exact List.mem_cons_self _ _
              · rw [h2]; exact hfind
            · exact Or.inr ⟨h1, List.mem_cons_of_mem _ h2, h3, h4, h5, h6⟩
          · rintro (h | ⟨h1, h2, ⟨dcols, hd1, hd2⟩, h4, h5, h6⟩)
            · exact Or.inl (Or.inl h)
            · rcases List.mem_cons.mp h2 with h7 | h7
              · rw [h7] at hd1
                rw [hfind] at hd1
                cases hd1
                exact Or.inl (Or.inr ⟨h1, h7, hd2, h4, h5, h6⟩)
              · exact Or.inr ⟨h1, h7, ⟨dcols, hd1, hd2⟩, h4, h5, h6⟩

theorem edgeMem_nodeStep (flat : Bool) (mcVal : List (String × List String))
    (g : Graph) (e : String × ModelNode) (m1 c1 u1 uc1 : String) :
    edgeMem (nodeStep flat mcVal g e) m1 c1 u1 uc1 = true ↔
      (edgeMem g m1 c1 u1 uc1 = true ∨ NodeCond mcVal e m1 c1 u1 uc1) := by
  unfold nodeStep NodeCond
  by_cases h1 : e.2.resource_type = "model"
  · rw [if_pos h1]
    by_cases h2 : e.2.compiled_sql = ""
    · rw [if_pos h2]
      constructor
      · exact Or.inl
      · rintro (h | ⟨-, -, h3, -⟩)
        · exact h
        · exact absurd h2 h3
    · rw [if_neg h2]
      cases hfind : alistFind e.1 mcVal with
      | none =>
          constructor
          · exact Or.inl
          · rintro (h | ⟨-, -, -, ⟨mcols, hm1, -⟩, -⟩)
            · exact h
            · exact absurd hm1 (by simp)
      | some modelCols =>
          rw [edgeMem_depsFold]
          constructor
          · rintro (h | ⟨h3, h4, h5, h6, h7, h8⟩)
            · exact Or.inl h
            · exact Or.inr ⟨h3, h1, h2, ⟨modelCols, rfl, h7⟩, h4, h5, h6, h8⟩
          · rintro (h | ⟨h3, -, -, ⟨mcols, hm1, hm2⟩, h6, h7, h8, h9⟩)
            · exact Or.inl h
            · cases hm1
              exact Or.inr ⟨h3, h6, h7, h8, hm2, h9⟩
  · rw [if_neg h1]
    constructor
    · exact Or.inl
    · rintro (h | ⟨-, h3, -⟩)
      · exact h
      · exact absurd h3 h1

theorem edgeMem_foldNodes (flat : Bool) (mcVal : List (String × List String))
    (nodes : List (String × ModelNode)) (m1 c1 u1 uc1 : String) : ∀ g : Graph,
    edgeMem (nodes.foldl (nodeStep flat mcVal) g) m1 c1 u1 uc1 = true ↔
      (edgeMem g m1 c1 u1 uc1 = true ∨
        ∃ e ∈ nodes, NodeCond mcVal e m1 c1 u1 uc1) := by
  induction nodes with
  | nil => intro g; simp
  | cons e nodes ih =>
      intro g
      have hstep : (e :: nodes).foldl (nodeStep flat mcVal) g =
          nodes.foldl (nodeStep flat mcVal) (nodeStep flat mcVal g e) := rfl
      rw [hstep, ih, edgeMem_nodeStep]
      constructor
      · rintro ((h | h) | ⟨e2, he2, hc2⟩)
        · exact Or.inl h
        · exact Or.inr ⟨e, List.mem_cons_self _ _, h⟩
        · exact Or.inr ⟨e2, List.mem_cons_of_mem _ he2, hc2⟩
      · rintro (h | ⟨e2, he2, hc2⟩)
        · exact Or.inl (Or.inl h)
        · rcases List.mem_cons.mp he2 with h7 | h7
          · rw [h7] at hc2
            exact Or.inl (Or.inr hc2)
          · exact Or.inr ⟨e2, h7, hc2⟩

theorem edgeMem_empty (m c u uc : String) : edgeMem [] m c u uc = false := by
  simp [edgeMem, listAt, alistFind]

theorem edgeMem_inferGraph (flat : Bool) (nodes : List (String × ModelNode))
    (catalog : List (String × CatalogNode)) (m c u uc : String) :
    edgeMem (inferGraph flat nodes catalog) m c u uc = true ↔
      ∃ e ∈ nodes, NodeCond (buildModelColumns catalog) e m c u uc := by
  unfold inferGraph
  rw [edgeMem_foldNodes, edgeMem_empty]
  simp

theorem buildModelColumns_sound (catalog : List (String × CatalogNode))
    (k : String) (cols : List String)
    (h : alistFind k (buildModelColumns catalog) = some cols) :
    ∃ cn, (k, cn) ∈ catalog ∧ (cn.type = "table" ∨ cn.type = "view") ∧
      cn.columns = cols := by
  have haux : ∀ (cat : List (String × CatalogNode)) (mc : List (String × List String)),
      alistFind k
          (cat.foldl
            (fun mc e =>
              if e.2.type = "table" ∨ e.2.type = "view" then
                alistModify e.1 [] (fun _ => e.2.columns) mc
              else mc)
            mc) = some cols →
        alistFind k mc = some cols ∨
          ∃ cn, (k, cn) ∈ cat ∧ (cn.type = "table" ∨ cn.type = "view") ∧
            cn.columns = cols := by
    intro cat
    induction cat with
    | nil => exact fun mc h2 => Or.inl h2
    | cons e rest ih =>
        obtain ⟨n, cn⟩ := e
        intro mc h2
        rcases ih _ h2 with h3 | ⟨cn2, h4, h5, h6⟩
        · dsimp only at h3
          by_cases hk : (cn.type = "table" ∨ cn.type = "view")
          · rw [if_pos hk, alistFind_modify] at h3
            by_cases hkn : k = n
            · right
              refine ⟨cn, ?_, hk, ?_⟩
              · rw [hkn]; exact List.mem_cons_self _ _
              · rw [if_pos hkn] at h3
                exact Option.some.inj h3
            · rw [if_neg hkn] at h3
              exact Or.inl h3
          · rw [if_neg hk] at h3
            exact Or.inl h3
        · exact Or.inr ⟨cn2, List.mem_cons_of_mem _ h4, h5, h6⟩
  unfold buildModelColumns at h
  rcases haux catalog [] h with h2 | h2
  · simp [alistFind] at h2
  · exact h2

theorem keysNodup_mem_unique {α : Type} {l : List (String × α)}
    (h : (l.map Prod.fst).Nodup) {k : String} {v w : α}
    (h1 : (k, v) ∈ l) (h2 : (k, w) ∈ l) : v = w := by
  induction l with
  | nil => cases h1
  | cons e rest ih =>
      rw [List.map_cons] at h
      have hnd := List.nodup_cons.mp h
      rcases List.mem_cons.mp h1 with h3 | h3 <;> rcases List.mem_cons.mp h2 with h4 | h4
      · exact (Prod.ext_iff.mp (h3.trans h4.symm)).2
      · refine absurd ?_ hnd.1
        have hk : e.1 = k := by rw [← h3]
        rw [hk]
        exact List.mem_map_of_mem Prod.fst h4
      · refine absurd ?_ hnd.1
        have hk : e.1 = k := by rw [← h4]
        rw [hk]
        exact List.mem_map_of_mem Prod.fst h3
      · exact ih hnd.2 h3 h4

/-- C1: edge-anchoring invariant.  Every entry `(m, c, u, uc)` of the graph
produced by either extractor satisfies: `u` is a declared dependency of the
manifest node of `m` (a node of resource type model), `c` is a column of a
table/view catalog entry of `m`, and `uc` is a column of a table/view
catalog entry of `u`. -/
theorem C1_edge_anchoring (nodes : List (String × ModelNode))
    (catalog : List (String × CatalogNode)) (m c u uc : String)
    (h : edgeMem (extract_column_lineage nodes catalog) m c u uc = true ∨
         edgeMem (all_column_lineage nodes catalog) m c u uc = true) :
    (∃ nd, (m, nd) ∈ nodes ∧ nd.resource_type = "model" ∧ u ∈ nd.depends_on) ∧
      (∃ cn, (m, cn) ∈ catalog ∧ (cn.type = "table" ∨ cn.type = "view") ∧
        c ∈ cn.columns) ∧
      (∃ cn, (u, cn) ∈ catalog ∧ (cn.type = "table" ∨ cn.type = "view") ∧
        uc ∈ cn.columns) := by
  have h2 : ∃ e ∈ nodes, NodeCond (buildModelColumns catalog) e m c u uc := by
    rcases h with h | h
    · exact (edgeMem_inferGraph true nodes catalog m c u uc).mp h
    · exact (edgeMem_inferGraph false nodes catalog m c u uc).mp h
  obtain ⟨e, he, hm1, hrt, hsql, ⟨mcols, hmc1, hmc2⟩, hdep, ⟨dcols, hdc1, hdc2⟩,
    hgate, hpat⟩ := h2
  refine ⟨⟨e.2, ?_, hrt, hdep⟩, ?_, ?_⟩
  · rw [hm1]; exact he
  · obtain ⟨cn, hc1, hc2, hc3⟩ := buildModelColumns_sound catalog e.1 mcols hmc1
    refine ⟨cn, ?_, hc2, ?_⟩
    · rw [hm1]; exact hc1
    · rw [hc3]; exact hmc2
  · obtain ⟨cn, hc1, hc2, hc3⟩ := buildModelColumns_sound catalog u dcols hdc1
    refine ⟨cn, hc1, hc2, ?_⟩
    rw [hc3]; exact hdc2

/-- C1: witness at the aliasing scenario, for the edge
(order_summary, order_id, raw_orders, id) of the flat extractor. -/
theorem C1_edge_anchoring_witness :
    (∃ nd, ("order_summary", nd) ∈ c5nodes ∧ nd.resource_type = "model" ∧
        "raw_orders" ∈ nd.depends_on) ∧
      (∃ cn, ("order_summary", cn) ∈ c5catalog ∧
        (cn.type = "table" ∨ cn.type = "view") ∧ "order_id" ∈ cn.columns) ∧
      (∃ cn, ("raw_orders", cn) ∈ c5catalog ∧
        (cn.type = "table" ∨ cn.type = "view") ∧ "id" ∈ cn.columns) :=
  C1_edge_anchoring c5nodes c5catalog "order_summary" "order_id" "raw_orders" "id"
    (Or.inl (by decide))

/-- C3: presence-gate soundness.  When the upstream column name `uc` does not
occur as a whole word in the compiled text of `m`'s (unique) manifest node,
neither extractor records any edge `(m, c, u, uc)`; moreover the
per-upstream-column step is the identity on the graph, before any own-column
pattern is tested. -/
theorem C3_presence_gate (nodes : List (String × ModelNode))
    (catalog : List (String × CatalogNode)) (m c u uc : String) (nd : ModelNode)
    (flat : Bool) (g : Graph) (mcs : List String)
    (hmem : (m, nd) ∈ nodes) (hnodup : (nodes.map Prod.fst).Nodup)
    (hgate : containsWordCS nd.compiled_sql.toList uc.toList = false) :
    edgeMem (extract_column_lineage nodes catalog) m c u uc = false ∧
      edgeMem (all_column_lineage nodes catalog) m c u uc = false ∧
      colStep flat nd.compiled_sql.toList m u mcs g uc = g := by
  have key : ∀ fl, edgeMem (inferGraph fl nodes catalog) m c u uc = false := by
    intro fl
    cases hb : edgeMem (inferGraph fl nodes catalog) m c u uc with
    | false => rfl
    | true =>
        exfalso
        obtain ⟨e, he, hm1, hrt, hsql, hmcx, hdep, hdcx, hgate2, hpat⟩ :=
          (edgeMem_inferGraph fl nodes catalog m c u uc).mp hb
        have hemem : (m, e.2) ∈ nodes := by rw [hm1]; exact he
        have hnd2 : nd = e.2 := keysNodup_mem_unique hnodup hmem hemem
        rw [← hnd2] at hgate2
        rw [hgate] at hgate2
        exact Bool.false_ne_true hgate2
  refine ⟨key true, key false, ?_⟩
  unfold colStep
  rw [hgate]
  simp

/-- C3: witness at the unaliased-passthrough scenario, for the absent
upstream column customer_id. -/
theorem C3_presence_gate_witness :
    edgeMem (extract_column_lineage c4nodes c4catalog)
        "order_summary" "total" "orders" "customer_id" = false ∧
      edgeMem (all_column_lineage c4nodes c4catalog)
        "order_summary" "total" "orders" "customer_id" = false ∧
      colStep true
          (String.toList
            "select order_id, sum(amount) as total from orders group by order_id")
          "order_summary" "orders" ["order_id", "total"] [] "customer_id" = [] :=
  C3_presence_gate c4nodes c4catalog "order_summary" "total" "orders" "customer_id"
    ⟨"model", "select order_id, sum(amount) as total from orders group by order_id",
      ["orders"]⟩
    true [] ["order_id", "total"] (by decide) (by decide) (by decide)

/-- C7: counterexample.  On a model whose compiled text passes the presence
gate for an upstream column without any own-column pattern firing, the flat
extractor keeps an empty entry for the model while the targeted extractor
records nothing, so the two one-hop graphs are not structurally identical. -/
theorem C7_counterexample :
    extract_column_lineage c7nodes c7catalog ≠ all_column_lineage c7nodes c7catalog := by
  decide

/-- C7: amended claim.  The two extractors agree on the recorded edge set —
an edge `(m, c, u, uc)` is present in the flat graph exactly when it is
present in the targeted graph — though the two graphs need not be
structurally identical (the flat graph may hold empty model entries and
duplicated upstream columns). -/
theorem C7_mode_edge_equivalence (nodes : List (String × ModelNode))
    (catalog : List (String × CatalogNode)) (m c u uc : String) :
    edgeMem (extract_column_lineage nodes catalog) m c u uc =
      edgeMem (all_column_lineage nodes catalog) m c u uc := by
  unfold extract_column_lineage all_column_lineage
  have h1 := edgeMem_inferGraph true nodes catalog m c u uc
  have h2 := edgeMem_inferGraph false nodes catalog m c u uc
  rcases Bool.dichotomy (edgeMem (inferGraph true nodes catalog) m c u uc) with hb | hb <;>
    rcases Bool.dichotomy (edgeMem (inferGraph false nodes catalog) m c u uc) with hc | hc
  · rw [hb, hc]
  · exact absurd (h1.mpr (h2.mp hc)) (by rw [hb]; exact Bool.false_ne_true)
  · exact absurd (h2.mpr (h1.mp hb)) (by rw [hc]; exact Bool.false_ne_true)
  · rw [hb, hc]

/-! ### Duplicate-freedom of the recorded lists -/

theorem AllNodup_pushEdge (flat : Bool) (g : Graph) (m mc u col : String)
    (h : AllNodup g) (hcol : flat = true → edgeMem g m mc u col = false) :
    AllNodup (pushEdge flat g m mc u col) := by
  intro m1 c1 u1
  rw [listAt_pushEdge]
  split
  · split
    · exact h m mc u
    · rename_i hb
      have hnotin : col ∉ listAt g m mc u := by
        cases flat with
        | true =>
            have h2 := hcol rfl
            simp only [edgeMem, decide_eq_true_eq] at h2
            intro h3
            rw [(by simp [h3] : decide (col ∈ listAt g m mc u) = true)] at h2
            exact Bool.false_ne_true h2.symm
        | false =>
            intro h3
            exact hb (by simp [h3])
      rw [List.nodup_append]
      refine ⟨h m mc u, List.nodup_singleton _, ?_⟩
      intro x hx hx2
      rw [List.mem_singleton] at hx2
      rw [hx2] at hx
      exact hnotin hx
  · exact h m1 c1 u1

theorem AllNodup_modelColsFold (flat : Bool) (sql : List Char) (m u col : String)
    (mcs : List String) : ∀ g : Graph, AllNodup g →
    (flat = true → mcs.Nodup) →
    (∀ mc ∈ mcs, flat = true → edgeMem g m mc u col = false) →
    AllNodup (modelColsFold flat sql m u col mcs g) := by
  induction mcs with
  | nil => exact fun g h _ _ => h
  | cons mc mcs ih =>
      intro g h hnd hne
      have hstep : modelColsFold flat sql m u col (mc :: mcs) g =
          modelColsFold flat sql m u col mcs
            (if patternsHit sql mc col then pushEdge flat g m mc u col else g) := rfl
      rw [hstep]
      by_cases hhit : patternsHit sql mc col = true
      · rw [if_pos hhit]
        refine ih _ (AllNodup_pushEdge flat g m mc u col h
            (fun hf => hne mc (List.mem_cons_self _ _) hf))
          (fun hf => (List.nodup_cons.mp (hnd hf)).2) ?_
        intro mc2 hmc2 hf
        cases hb : edgeMem (pushEdge flat g m mc u col) m mc2 u col with
        | false => rfl
        | true =>
            exfalso
            rcases (edgeMem_pushEdge flat g m mc u col m mc2 u col).mp hb with
              h4 | ⟨-, h5, -, -⟩
            · rw [hne mc2 (List.mem_cons_of_mem _ hmc2) hf] at h4
              exact Bool.false_ne_true h4
            · have h6 := (List.nodup_cons.mp (hnd hf)).1
              rw [← h5] at h6
              exact h6 hmc2
      · rw [if_neg hhit]
        exact ih _ h (fun hf => (List.nodup_cons.mp (hnd hf)).2)
          (fun mc2 h2 hf => hne mc2 (List.mem_cons_of_mem _ h2) hf)

theorem AllNodup_colStep (flat : Bool) (sql : List Char) (m u : String)
    (mcs : List String) (g : Graph) (col : String) (h : AllNodup g)
    (hnd : flat = true → mcs.Nodup)
    (hne : ∀ mc, flat = true → edgeMem g m mc u col = false) :
    AllNodup (colStep flat sql m u mcs g col) := by
  unfold colStep
  split
  · refine AllNodup_modelColsFold flat sql m u col mcs _ ?_ hnd ?_
    · cases flat with
      | false => exact h
      | true =>
          intro m1 c1 u1
          rw [if_pos rfl, listAt_ensureModel]
          exact h m1 c1 u1
    · intro mc hmc hf
      cases flat with
      | false => exact absurd hf (by simp)
      | true =>
          rw [if_pos rfl, edgeMem_ensureModel]
          exact hne mc hf
  · exact h

theorem AllNodup_depColsFold (flat : Bool) (sql : List Char) (m u : String)
    (mcs cols : List String) : ∀ g : Graph, AllNodup g →
    (flat = true → mcs.Nodup) →
    (flat = true → cols.Nodup) →
    (∀ col ∈ cols, ∀ mc, flat = true → edgeMem g m mc u col = false) →
    AllNodup (depColsFold flat sql m u mcs cols g) := by
  induction cols with
  | nil => exact fun g h _ _ _ => h
  | cons col cols ih =>
      intro g h hmcs hnd hne
      have hstep : depColsFold flat sql m u mcs (col :: cols) g =
          depColsFold flat sql m u mcs cols (colStep flat sql m u mcs g col) := rfl
      rw [hstep]
      refine ih _ (AllNodup_colStep flat sql m u mcs g col h hmcs
          (fun mc hf => hne col (List.mem_cons_self _ _) mc hf))
        hmcs (fun hf => (List.nodup_cons.mp (hnd hf)).2) ?_
      intro col2 hcol2 mc hf
      cases hb : edgeMem (colStep flat sql m u mcs g col) m mc u col2 with
      | false => rfl
      | true =>
          exfalso
          rcases (edgeMem_colStep flat sql m u mcs g col m mc u col2).mp hb with
            h4 | ⟨-, -, h5, -⟩
          · rw [hne col2 (List.mem_cons_of_mem _ hcol2) mc hf] at h4
            exact Bool.false_ne_true h4
          · have h6 := (List.nodup_cons.mp (hnd hf)).1
            rw [← h5] at h6
            exact h6 hcol2

theorem AllNodup_depsFold (flat : Bool) (mcVal : List (String × List String))
    (sql : List Char) (m : String) (mcs : List String) (deps : List String) :
    ∀ g : Graph, AllNodup g →
    (flat = true → mcs.Nodup) →
    (flat = true → deps.Nodup) →
    (∀ k cols, alistFind k mcVal = some cols → flat = true → cols.Nodup) →
    (∀ dep ∈ deps, ∀ c2 uc2, flat = true → edgeMem g m c2 dep uc2 = false) →
    AllNodup (depsFold flat mcVal sql m mcs deps g) := by
  induction deps with
  | nil => exact fun g h _ _ _ _ => h
  | cons dep deps ih =>
      intro g h hmcs hnd hval hne
      have hstep : depsFold flat mcVal sql m mcs (dep :: deps) g =
          depsFold flat mcVal sql m mcs deps
            (match alistFind dep mcVal with
             | none => g
             | some depCols => depColsFold flat sql m dep mcs depCols g) := rfl
      rw [hstep]
      cases hfind : alistFind dep mcVal with
      | none =>
          exact ih _ h hmcs (fun hf => (List.nodup_cons.mp (hnd hf)).2) hval
            (fun dep2 h2 c2 uc2 hf => hne dep2 (List.mem_cons_of_mem _ h2) c2 uc2 hf)
      | some depCols =>
          refine ih _ (AllNodup_depColsFold flat sql m dep mcs depCols g h hmcs
              (hval dep depCols hfind)
              (fun col hcol mc hf => hne dep (List.mem_cons_self _ _) mc col hf))
            hmcs (fun hf => (List.nodup_cons.mp (hnd hf)).2) hval ?_
          intro dep2 hdep2 c2 uc2 hf
          cases hb : edgeMem (depColsFold flat sql m dep mcs depCols g) m c2 dep2 uc2 with
          | false => rfl
          | true =>
              exfalso
              rcases (edgeMem_depColsFold flat sql m dep mcs depCols m c2 dep2 uc2 g).mp
                  hb with h4 | ⟨-, h5, -⟩
              · rw [hne dep2 (List.mem_cons_of_mem _ hdep2) c2 uc2 hf] at h4
                exact Bool.false_ne_true h4
              · have h6 := (List.nodup_cons.mp (hnd hf)).1
                rw [← h5] at h6
                exact h6 hdep2

theorem AllNodup_nodeStep (flat : Bool) (mcVal : List (String × List String))
    (g : Graph) (e : String × ModelNode) (h : AllNodup g)
    (hdeps : flat = true → e.2.depends_on.Nodup)
    (hval : ∀ k cols, alistFind k mcVal = some cols → flat = true → cols.Nodup)
    (hne : ∀ c2 u2 uc2, flat = true → edgeMem g e.1 c2 u2 uc2 = false) :
    AllNodup (nodeStep flat mcVal g e) := by
  unfold nodeStep
  split
  · split
    · exact h
    · cases hfind : alistFind e.1 mcVal with
      | none => exact h
      | some modelCols =>
          exact AllNodup_depsFold flat mcVal e.2.compiled_sql.toList e.1 modelCols
            e.2.depends_on g h (hval e.1 modelCols hfind) hdeps hval
            (fun dep _ c2 uc2 hf => hne c2 dep uc2 hf)
  · exact h

theorem AllNodup_foldNodes (flat : Bool) (mcVal : List (String × List String))
    (nodes : List (String × ModelNode)) : ∀ g : Graph, AllNodup g →
    (flat = true → (nodes.map Prod.fst).Nodup) →
    (∀ e ∈ nodes, flat = true → e.2.depends_on.Nodup) →
    (∀ k cols, alistFind k mcVal = some cols → flat = true → cols.Nodup) →
    (∀ e ∈ nodes, ∀ c2 u2 uc2, flat = true → edgeMem g e.1 c2 u2 uc2 = false) →
    AllNodup (nodes.foldl (nodeStep flat mcVal) g) := by
  induction nodes with
  | nil => exact fun g h _ _ _ _ => h
  | cons e nodes ih =>
      intro g h hkeys hdeps hval hne
      have hstep : (e :: nodes).foldl (nodeStep flat mcVal) g =
          nodes.foldl (nodeStep flat mcVal) (nodeStep flat mcVal g e) := rfl
      rw [hstep]
      refine ih _ (AllNodup_nodeStep flat mcVal g e h
          (hdeps e (List.mem_cons_self _ _)) hval
          (fun c2 u2 uc2 hf => hne e (List.mem_cons_self _ _) c2 u2 uc2 hf))
        (fun hf => by
          have h2 := hkeys hf
          rw [List.map_cons] at h2
          exact (List.nodup_cons.mp h2).2)
        (fun e2 h2 hf => hdeps e2 (List.mem_cons_of_mem _ h2) hf) hval ?_
      intro e2 he2 c2 u2 uc2 hf
      cases hb : edgeMem (nodeStep flat mcVal g e) e2.1 c2 u2 uc2 with
      | false => rfl
      | true =>
          exfalso
          rcases (edgeMem_nodeStep flat mcVal g e e2.1 c2 u2 uc2).mp hb with
            h4 | ⟨h5, -⟩
          · rw [hne e2 (List.mem_cons_of_mem _ he2) c2 u2 uc2 hf] at h4
            exact Bool.false_ne_true h4
          · have h6 := hkeys hf
            rw [List.map_cons] at h6
            have h7 := (List.nodup_cons.mp h6).1
            rw [← h5] at h7
            exact h7 (List.mem_map_of_mem Prod.fst he2)

theorem AllNodup_empty : AllNodup [] := by
  intro m c u
  simp [listAt, alistFind]

/-- C6: counterexample.  With the repeated dependency list [u, u] the flat
extractor appends the same upstream column twice to the same target list, so
its graph violates per-key duplicate-freedom. -/
theorem C6_counterexample : ¬ AllNodup (extract_column_lineage c6nodes c6catalog) := by
  intro h
  have h2 := h "m" "a" "u"
  rw [(by decide :
    listAt (extract_column_lineage c6nodes c6catalog) "m" "a" "u" = ["x", "x"])] at h2
  simp at h2

/-- C6: amended claim.  The targeted extractor never records a duplicate in
any per-(model, column, upstream-model) list, for every input; the flat
extractor guarantees this only when the manifest keys, each dependency list
and each catalog column list are duplicate-free — with a repeated dependency
identifier it appends duplicates. -/
theorem C6_dedup :
    (∀ (nodes : List (String × ModelNode)) (catalog : List (String × CatalogNode)),
        AllNodup (all_column_lineage nodes catalog)) ∧
      (∀ (nodes : List (String × ModelNode)) (catalog : List (String × CatalogNode)),
        (nodes.map Prod.fst).Nodup →
        (∀ e ∈ nodes, e.2.depends_on.Nodup) →
        (∀ e ∈ catalog, e.2.columns.Nodup) →
        AllNodup (extract_column_lineage nodes catalog)) := by
  constructor
  · intro nodes catalog
    unfold all_column_lineage inferGraph
    refine AllNodup_foldNodes false _ nodes [] AllNodup_empty ?_ ?_ ?_ ?_
    · exact fun hf => absurd hf (by simp)
    · exact fun e _ hf => absurd hf (by simp)
    · exact fun k cols _ hf => absurd hf (by simp)
    · exact fun e _ c2 u2 uc2 hf => absurd hf (by simp)
  · intro nodes catalog hkeys hdeps hcols
    unfold extract_column_lineage inferGraph
    refine AllNodup_foldNodes true _ nodes [] AllNodup_empty (fun _ => hkeys)
      (fun e h2 _ => hdeps e h2) ?_ ?_
    · intro k cols hfind _
      obtain ⟨cn, hc1, -, hc3⟩ := buildModelColumns_sound catalog k cols hfind
      rw [← hc3]
      exact hcols (k, cn) hc1
    · exact fun e _ c2 u2 uc2 _ => edgeMem_empty e.1 c2 u2 uc2

/-- C6: witness instantiating the amended claim — the targeted graph of the
aliasing scenario and the flat graph of the passthrough scenario are both
duplicate-free. -/
theorem C6_dedup_witness :
    AllNodup (all_column_lineage c5nodes c5catalog) ∧
      AllNodup (extract_column_lineage c4nodes c4catalog) :=
  ⟨C6_dedup.1 c5nodes c5catalog,
   C6_dedup.2 c4nodes c4catalog (by decide) (by decide) (by decide)⟩

/-! ### Termination of the closure resolvers -/

theorem meas_step_le {U : Finset SP} {p q : SP} {v w : List SP}
    (hq : q ∈ U) (hw : ∀ x ∈ p :: v, x ∈ w) (hp : p ∉ v) :
    ((insert q U) \ w.toFinset).card + 1 ≤ ((insert p U) \ v.toFinset).card := by
  rw [Finset.insert_eq_self.mpr hq]
  have h2 : insert p v.toFinset ⊆ w.toFinset := by
    intro x hx
    rw [Finset.mem_insert] at hx
    rw [List.mem_toFinset]
    rcases hx with hx | hx
    · exact hw x (by rw [hx]; exact List.mem_cons_self _ _)
    · exact hw x (List.mem_cons_of_mem _ (List.mem_toFinset.mp hx))
  have h3 : U \ w.toFinset ⊆ U \ insert p v.toFinset :=
    Finset.sdiff_subset_sdiff (Finset.Subset.refl U) h2
  have h4 : U \ insert p v.toFinset = (U \ v.toFinset).erase p :=
    Finset.sdiff_insert U v.toFinset p
  have h5 : (insert p U) \ v.toFinset = insert p (U \ v.toFinset) :=
    Finset.insert_sdiff_of_not_mem U (fun h6 => hp (List.mem_toFinset.mp h6))
  have h6 := Finset.card_le_card (h3.trans (le_of_eq h4))
  rw [h5]
  by_cases h7 : p ∈ U \ v.toFinset
  · have h8 := Finset.card_erase_of_mem h7
    have h9 : 0 < (U \ v.toFinset).card := Finset.card_pos.mpr ⟨p, h7⟩
    rw [Finset.insert_eq_self.mpr h7]
    omega
  · rw [Finset.erase_eq_of_not_mem h7] at h6
    rw [Finset.card_insert_of_not_mem h7]
    omega

theorem lookup2_mem_upPairs {g : Graph} {a b : String}
    {e : String × List String} {uc : String}
    (he : e ∈ lookup2 g a b) (huc : uc ∈ e.2) : (e.1, uc) ∈ upPairsList g := by
  unfold lookup2 at he
  split at he
  · cases he
  · rename_i cm h1
    split at he
    · cases he
    · rename_i um h2
      unfold upPairsList
      rw [List.mem_flatMap]
      refine ⟨(a, cm), alistFind_mem h1, ?_⟩
      rw [List.mem_flatMap]
      refine ⟨(b, um), alistFind_mem h2, ?_⟩
      rw [List.mem_flatMap]
      refine ⟨e, he, ?_⟩
      rw [List.mem_map]
      exact ⟨uc, huc, rfl⟩

theorem upColFold_mono (rec : SP → List SP → Closure × List SP)
    (hrec : ∀ q w, w ⊆ (rec q w).2) (u : String) :
    ∀ (ucs : List String) (acc : UpAcc),
      acc.2 ⊆ (ucs.foldl (upColStep rec u) acc).2 := by
  intro ucs
  induction ucs with
  | nil => exact fun acc => List.Subset.refl _
  | cons uc ucs ih =>
      intro acc
      have h1 : acc.2 ⊆ (upColStep rec u acc uc).2 := hrec (u, uc) acc.2
      exact h1.trans (ih (upColStep rec u acc uc))

theorem upEntryFold_mono (rec : SP → List SP → Closure × List SP)
    (hrec : ∀ q w, w ⊆ (rec q w).2) :
    ∀ (entries : UpMap) (acc : UpAcc),
      acc.2 ⊆ (entries.foldl (upEntryStep rec) acc).2 := by
  intro entries
  induction entries with
  | nil => exact fun acc => List.Subset.refl _
  | cons e entries ih =>
      intro acc
      exact (upColFold_mono rec hrec e.1 e.2 acc).trans (ih (upEntryStep rec acc e))

theorem getUpF_mono (g : Graph) : ∀ (n : Nat) (q : SP) (w : List SP),
    w ⊆ (getUpF g n q w).2 := by
  intro n
  induction n with
  | zero => exact fun q w => List.Subset.refl _
  | succ n ih =>
      intro q w
      show w ⊆ (getUpStep g (getUpF g n) q w).2
      unfold getUpStep
      split
      · exact List.Subset.refl _
      · have h1 : (q :: w) ⊆
            ((lookup2 g q.1 q.2).foldl (upEntryStep (getUpF g n)) ([], q :: w)).2 :=
          upEntryFold_mono (getUpF g n) ih (lookup2 g q.1 q.2) ([], q :: w)
        exact fun x hx => h1 (List.mem_cons_of_mem _ hx)

theorem upColFold_eq (recA recB : SP → List SP → Closure × List SP)
    (hmonoA : ∀ q w, w ⊆ (recA q w).2) (base : List SP) (U : List SP)
    (hAB : ∀ q w, q ∈ U → base ⊆ w → recA q w = recB q w) (u : String) :
    ∀ (ucs : List String) (acc : UpAcc),
      (∀ uc ∈ ucs, ((u, uc) : SP) ∈ U) → base ⊆ acc.2 →
      ucs.foldl (upColStep recA u) acc = ucs.foldl (upColStep recB u) acc := by
  intro ucs
  induction ucs with
  | nil => exact fun acc _ _ => rfl
  | cons uc ucs ih =>
      intro acc hU hbase
      have h1 : recA (u, uc) acc.2 = recB (u, uc) acc.2 :=
        hAB (u, uc) acc.2 (hU uc (List.mem_cons_self _ _)) hbase
      have h2 : upColStep recA u acc uc = upColStep recB u acc uc := by
        unfold upColStep
        rw [h1]
      show List.foldl (upColStep recA u) (upColStep recA u acc uc) ucs =
        List.foldl (upColStep recB u) (upColStep recB u acc uc) ucs
      rw [← h2]
      exact ih (upColStep recA u acc uc)
        (fun uc2 h3 => hU uc2 (List.mem_cons_of_mem _ h3))
        (hbase.trans (hmonoA (u, uc) acc.2))

theorem upEntryFold_eq (recA recB : SP → List SP → Closure × List SP)
    (hmonoA : ∀ q w, w ⊆ (recA q w).2) (base : List SP) (U : List SP)
    (hAB : ∀ q w, q ∈ U → base ⊆ w → recA q w = recB q w) :
    ∀ (entries : UpMap) (acc : UpAcc),
      (∀ e ∈ entries, ∀ uc ∈ e.2, ((e.1, uc) : SP) ∈ U) → base ⊆ acc.2 →
      entries.foldl (upEntryStep recA) acc = entries.foldl (upEntryStep recB) acc := by
  intro entries
  induction entries with
  | nil => exact fun acc _ _ => rfl
  | cons e entries ih =>
      intro acc hU hbase
      have h2 : upEntryStep recA acc e = upEntryStep recB acc e :=
        upColFold_eq recA recB hmonoA base U hAB e.1 e.2 acc
          (fun uc h3 => hU e (List.mem_cons_self _ _) uc h3) hbase
      show List.foldl (upEntryStep recA) (upEntryStep recA acc e) entries =
        List.foldl (upEntryStep recB) (upEntryStep recB acc e) entries
      rw [← h2]
      exact ih (upEntryStep recA acc e)
        (fun e2 h3 uc h4 => hU e2 (List.mem_cons_of_mem _ h3) uc h4)
        (hbase.trans (upColFold_mono recA hmonoA e.1 e.2 acc))

theorem getUpF_stab (g : Graph) : ∀ (k n m : Nat) (p : SP) (v : List SP),
    measUp g p v ≤ k → k < n → k < m → getUpF g n p v = getUpF g m p v := by
  intro k
  induction k with
  | zero =>
      intro n m p v hme hn hm
      have hp : p ∈ v := by
        by_contra hp
        have h1 : p ∈ (insert p (upPairsList g).toFinset) \ v.toFinset := by
          rw [Finset.mem_sdiff]
          exact ⟨Finset.mem_insert_self _ _, fun h2 => hp (List.mem_toFinset.mp h2)⟩
        have h2 : 0 < measUp g p v := Finset.card_pos.mpr ⟨p, h1⟩
        omega
      obtain ⟨n1, rfl⟩ : ∃ n1, n = n1 + 1 := ⟨n - 1, by omega⟩
      obtain ⟨m1, rfl⟩ : ∃ m1, m = m1 + 1 := ⟨m - 1, by omega⟩
      show getUpStep g (getUpF g n1) p v = getUpStep g (getUpF g m1) p v
      unfold getUpStep
      rw [if_pos hp, if_pos hp]
  | succ k ih =>
      intro n m p v hmeas hn hm
      obtain ⟨n1, rfl⟩ : ∃ n1, n = n1 + 1 := ⟨n - 1, by omega⟩
      obtain ⟨m1, rfl⟩ : ∃ m1, m = m1 + 1 := ⟨m - 1, by omega⟩
      show getUpStep g (getUpF g n1) p v = getUpStep g (getUpF g m1) p v
      unfold getUpStep
      by_cases hp : p ∈ v
      · rw [if_pos hp, if_pos hp]
      · rw [if_neg hp, if_neg hp]
        have hfold :
            (lookup2 g p.1 p.2).foldl (upEntryStep (getUpF g n1)) ([], p :: v) =
              (lookup2 g p.1 p.2).foldl (upEntryStep (getUpF g m1)) ([], p :: v) := by
          refine upEntryFold_eq (getUpF g n1) (getUpF g m1) (getUpF_mono g n1)
            (p :: v) (upPairsList g) ?_ (lookup2 g p.1 p.2) ([], p :: v) ?_
            (List.Subset.refl _)
          · intro q w hq hw
            refine ih n1 m1 q w ?_ (by omega) (by omega)
            have h2 := meas_step_le (U := (upPairsList g).toFinset)
              (List.mem_toFinset.mpr hq) (fun x hx => hw hx) hp
            unfold measUp at hmeas ⊢
            omega
          · exact fun e he uc huc => lookup2_mem_upPairs he huc
        rw [hfold]

theorem getUpF_stable (g : Graph) (p : SP) (v : List SP) (n : Nat)
    (hn : upBound g ≤ n) : getUpF g n p v = getUpF g (upBound g) p v := by
  refine getUpF_stab g ((upPairsList g).toFinset.card + 1) n (upBound g) p v ?_ ?_ ?_
  · unfold measUp
    have h1 : ((insert p (upPairsList g).toFinset) \ v.toFinset).card ≤
        (insert p (upPairsList g).toFinset).card :=
      Finset.card_le_card (Finset.sdiff_subset)
    have h2 := Finset.card_insert_le p (upPairsList g).toFinset
    omega
  · unfold upBound at hn
    omega
  · unfold upBound
    omega

theorem downPairs_mem {g : Graph} {me : String × ColMap} {ce : String × UpMap}
    (hme : me ∈ g) (hce : ce ∈ me.2) : ((me.1, ce.1) : SP) ∈ downPairsList g := by
  unfold downPairsList
  rw [List.mem_flatMap]
  refine ⟨me, hme, ?_⟩
  rw [List.mem_map]
  exact ⟨ce, hce, rfl⟩

theorem dnStep_mono (rec : SP → List SP → Closure × List SP)
    (hrec : ∀ q w, w ⊆ (rec q w).2) (acc : UpAcc) (dn dc : String) :
    acc.2 ⊆ (dnStep rec acc dn dc).2 := by
  unfold dnStep
  dsimp only
  split
  · exact List.Subset.refl _
  · exact hrec (dn, dc) acc.2

theorem downUpsFold_mono (rec : SP → List SP → Closure × List SP)
    (hrec : ∀ q w, w ⊆ (rec q w).2) (p : SP) (dn dc : String) :
    ∀ (ups : List (String × List String)) (acc : UpAcc),
      acc.2 ⊆ (ups.foldl (downUpsStep rec p dn dc) acc).2 := by
  intro ups
  induction ups with
  | nil => exact fun acc => List.Subset.refl _
  | cons ue ups ih =>
      intro acc
      refine List.Subset.trans ?_ (ih (downUpsStep rec p dn dc acc ue))
      unfold downUpsStep
      split
      · exact dnStep_mono rec hrec acc dn dc
      · exact List.Subset.refl _

theorem downColFold_mono (rec : SP → List SP → Closure × List SP)
    (hrec : ∀ q w, w ⊆ (rec q w).2) (p : SP) (dn : String) :
    ∀ (cm : ColMap) (acc : UpAcc),
      acc.2 ⊆ (cm.foldl (downColStep rec p dn) acc).2 := by
  intro cm
  induction cm with
  | nil => exact fun acc => List.Subset.refl _
  | cons ce cm ih =>
      intro acc
      exact (downUpsFold_mono rec hrec p dn ce.1 ce.2 acc).trans
        (ih (downColStep rec p dn acc ce))

theorem downModelFold_mono (rec : SP → List SP → Closure × List SP)
    (hrec : ∀ q w, w ⊆ (rec q w).2) (p : SP) :
    ∀ (gl : Graph) (acc : UpAcc),
      acc.2 ⊆ (gl.foldl (downModelStep rec p) acc).2 := by
  intro gl
  induction gl with
  | nil => exact fun acc => List.Subset.refl _
  | cons me gl ih =>
      intro acc
      exact (downColFold_mono rec hrec p me.1 me.2 acc).trans
        (ih (downModelStep rec p acc me))

theorem getDownF_mono (g : Graph) : ∀ (n : Nat) (q : SP) (w : List SP),
    w ⊆ (getDownF g n q w).2 := by
  intro n
  induction n with
  | zero => exact fun q w => List.Subset.refl _
  | succ n ih =>
      intro q w
      show w ⊆ (getDownStep g (getDownF g n) q w).2
      unfold getDownStep
      split
      · exact List.Subset.refl _
      · have h1 : (q :: w) ⊆
            (g.foldl (downModelStep (getDownF g n) q) ([], q :: w)).2 :=
          downModelFold_mono (getDownF g n) ih q g ([], q :: w)
        exact fun x hx => h1 (List.mem_cons_of_mem _ hx)

theorem dnStep_eq (recA recB : SP → List SP → Closure × List SP)
    (acc : UpAcc) (dn dc : String)
    (h : recA (dn, dc) acc.2 = recB (dn, dc) acc.2) :
    dnStep recA acc dn dc = dnStep recB acc dn dc := by
  unfold dnStep
  dsimp only
  split
  · rfl
  · rw [h]

theorem downUpsFold_eq (recA recB : SP → List SP → Closure × List SP)
    (hmonoA : ∀ q w, w ⊆ (recA q w).2) (base : List SP) (U : List SP)
    (hAB : ∀ q w, q ∈ U → base ⊆ w → recA q w = recB q w)
    (p : SP) (dn dc : String) (hdn : ((dn, dc) : SP) ∈ U) :
    ∀ (ups : List (String × List String)) (acc : UpAcc), base ⊆ acc.2 →
      ups.foldl (downUpsStep recA p dn dc) acc =
        ups.foldl (downUpsStep recB p dn dc) acc := by
  intro ups
  induction ups with
  | nil => exact fun acc _ => rfl
  | cons ue ups ih =>
      intro acc hbase
      have h2 : downUpsStep recA p dn dc acc ue = downUpsStep recB p dn dc acc ue := by
        unfold downUpsStep
        split
        · exact dnStep_eq recA recB acc dn dc (hAB (dn, dc) acc.2 hdn hbase)
        · rfl
      show List.foldl (downUpsStep recA p dn dc) (downUpsStep recA p dn dc acc ue) ups =
        List.foldl (downUpsStep recB p dn dc) (downUpsStep recB p dn dc acc ue) ups
      rw [← h2]
      refine ih (downUpsStep recA p dn dc acc ue) (hbase.trans ?_)
      unfold downUpsStep
      split
      · exact dnStep_mono recA hmonoA acc dn dc
      · exact List.Subset.refl _

theorem downColFold_eq (recA recB : SP → List SP → Closure × List SP)
    (hmonoA : ∀ q w, w ⊆ (recA q w).2) (base : List SP) (U : List SP)
    (hAB : ∀ q w, q ∈ U → base ⊆ w → recA q w = recB q w)
    (p : SP) (dn : String) :
    ∀ (cm : ColMap) (acc : UpAcc), (∀ ce ∈ cm, ((dn, ce.1) : SP) ∈ U) →
      base ⊆ acc.2 →
      cm.foldl (downColStep recA p dn) acc = cm.foldl (downColStep recB p dn) acc := by
  intro cm
  induction cm with
  | nil => exact fun acc _ _ => rfl
  | cons ce cm ih =>
      intro acc hU hbase
      have h2 : downColStep recA p dn acc ce = downColStep recB p dn acc ce :=
        downUpsFold_eq recA recB hmonoA base U hAB p dn ce.1
          (hU ce (List.mem_cons_self _ _)) ce.2 acc hbase
      show List.foldl (downColStep recA p dn) (downColStep recA p dn acc ce) cm =
        List.foldl (downColStep recB p dn) (downColStep recB p dn acc ce) cm
      rw [← h2]
      exact ih (downColStep recA p dn acc ce)
        (fun ce2 h3 => hU ce2 (List.mem_cons_of_mem _ h3))
        (hbase.trans (downUpsFold_mono recA hmonoA p dn ce.1 ce.2 acc))

theorem downModelFold_eq (recA recB : SP → List SP → Closure × List SP)
    (hmonoA : ∀ q w, w ⊆ (recA q w).2) (base : List SP) (U : List SP)
    (hAB : ∀ q w, q ∈ U → base ⊆ w → recA q w = recB q w) (p : SP) :
    ∀ (gl : Graph) (acc : UpAcc),
      (∀ me ∈ gl, ∀ ce ∈ me.2, ((me.1, ce.1) : SP) ∈ U) → base ⊆ acc.2 →
      gl.foldl (downModelStep recA p) acc = gl.foldl (downModelStep recB p) acc := by
  intro gl
  induction gl with
  | nil => exact fun acc _ _ => rfl
  | cons me gl ih =>
      intro acc hU hbase
      have h2 : downModelStep recA p acc me = downModelStep recB p acc me :=
        downColFold_eq recA recB hmonoA base U hAB p me.1 me.2 acc
          (fun ce h3 => hU me (List.mem_cons_self _ _) ce h3) hbase
      show List.foldl (downModelStep recA p) (downModelStep recA p acc me) gl =
        List.foldl (downModelStep recB p) (downModelStep recB p acc me) gl
      rw [← h2]
      exact ih (downModelStep recA p acc me)
        (fun me2 h3 ce h4 => hU me2 (List.mem_cons_of_mem _ h3) ce h4)
        (hbase.trans (downColFold_mono recA hmonoA p me.1 me.2 acc))

theorem getDownF_stab (g : Graph) : ∀ (k n m : Nat) (p : SP) (v : List SP),
    measDown g p v ≤ k → k < n → k < m → getDownF g n p v = getDownF g m p v := by
  intro k
  induction k with
  | zero =>
      intro n m p v hme hn hm
      have hp : p ∈ v := by
        by_contra hp
        have h1 : p ∈ (insert p (downPairsList g).toFinset) \ v.toFinset := by
          rw [Finset.mem_sdiff]
          exact ⟨Finset.mem_insert_self _ _, fun h2 => hp (List.mem_toFinset.mp h2)⟩
        have h2 : 0 < measDown g p v := Finset.card_pos.mpr ⟨p, h1⟩
        omega
      obtain ⟨n1, rfl⟩ : ∃ n1, n = n1 + 1 := ⟨n - 1, by omega⟩
      obtain ⟨m1, rfl⟩ : ∃ m1, m = m1 + 1 := ⟨m - 1, by omega⟩
      show getDownStep g (getDownF g n1) p v = getDownStep g (getDownF g m1) p v
      unfold getDownStep
      rw [if_pos hp, if_pos hp]
  | succ k ih =>
      intro n m p v hmeas hn hm
      obtain ⟨n1, rfl⟩ : ∃ n1, n = n1 + 1 := ⟨n - 1, by omega⟩
      obtain ⟨m1, rfl⟩ : ∃ m1, m = m1 + 1 := ⟨m - 1, by omega⟩
      show getDownStep g (getDownF g n1) p v = getDownStep g (getDownF g m1) p v
      unfold getDownStep
      by_cases hp : p ∈ v
      · rw [if_pos hp, if_pos hp]
      · rw [if_neg hp, if_neg hp]
        have hfold : g.foldl (downModelStep (getDownF g n1) p) ([], p :: v) =
            g.foldl (downModelStep (getDownF g m1) p) ([], p :: v) := by
          refine downModelFold_eq (getDownF g n1) (getDownF g m1) (getDownF_mono g n1)
            (p :: v) (downPairsList g) ?_ p g ([], p :: v) ?_ (List.Subset.refl _)
          · intro q w hq hw
            refine ih n1 m1 q w ?_ (by omega) (by omega)
            have h2 := meas_step_le (U := (downPairsList g).toFinset)
              (List.mem_toFinset.mpr hq) (fun x hx => hw hx) hp
            unfold measDown at hmeas ⊢
            omega
          · exact fun me hme ce hce => downPairs_mem hme hce
        rw [hfold]

theorem getDownF_stable (g : Graph) (p : SP) (v : List SP) (n : Nat)
    (hn : downBound g ≤ n) : getDownF g n p v = getDownF g (downBound g) p v := by
  refine getDownF_stab g ((downPairsList g).toFinset.card + 1) n (downBound g) p v ?_ ?_ ?_
  · unfold measDown
    have h1 : ((insert p (downPairsList g).toFinset) \ v.toFinset).card ≤
        (insert p (downPairsList g).toFinset).card :=
      Finset.card_le_card (Finset.sdiff_subset)
    have h2 := Finset.card_insert_le p (downPairsList g).toFinset
    omega
  · unfold downBound at hn
    omega
  · unfold downBound
    omega

/-- C2: cycle safety and termination of the closure resolvers.  For every
finite graph (cyclic or not) and every rooted pair, the fuel-indexed
upstream and downstream resolvers are independent of the fuel from the
computed bound on — the recursion terminates — and a pair already in the
visited set yields an empty closure with the visited set unchanged, instead
of recursing, so no pair is expanded twice along the same root's traversal. -/
theorem C2_cycle_safety (g : Graph) (p : SP) (v : List SP) (n : Nat)
    (hup : upBound g ≤ n) (hdown : downBound g ≤ n) :
    getUpF g n p v = getUpF g (upBound g) p v ∧
      getDownF g n p v = getDownF g (downBound g) p v ∧
      (p ∈ v →
        getUpF g n p v = (Closure.mk [], v) ∧
          getDownF g n p v = (Closure.mk [], v)) := by
  refine ⟨getUpF_stable g p v n hup, getDownF_stable g p v n hdown, ?_⟩
  intro hp
  have h2 : 2 ≤ n := by
    unfold upBound at hup
    omega
  obtain ⟨n1, rfl⟩ : ∃ n1, n = n1 + 1 := ⟨n - 1, by omega⟩
  constructor
  · show getUpStep g (getUpF g n1) p v = (Closure.mk [], v)
    unfold getUpStep
    rw [if_pos hp]
  · show getDownStep g (getDownF g n1) p v = (Closure.mk [], v)
    unfold getDownStep
    rw [if_pos hp]

/-- C2: witness on the cyclic graph A.x to B.y to A.x, rooted at (A, x),
with fuel 5 against the computed bounds (both equal 4). -/
theorem C2_cycle_safety_witness :
    getUpF cycleGraph 5 ("A", "x") [] = getUpF cycleGraph (upBound cycleGraph) ("A", "x") [] ∧
      getDownF cycleGraph 5 ("A", "x") [] =
        getDownF cycleGraph (downBound cycleGraph) ("A", "x") [] ∧
      ((("A", "x") : SP) ∈ ([] : List SP) →
        getUpF cycleGraph 5 ("A", "x") [] = (Closure.mk [], []) ∧
          getDownF cycleGraph 5 ("A", "x") [] = (Closure.mk [], [])) :=
  C2_cycle_safety cycleGraph ("A", "x") [] 5 (by decide) (by decide)

/-! ### Round-trip consistency of the closures -/

theorem OccursIn_of_present {es : List (String × List (String × Closure))} {q : SP}
    (h : pairPresent es q) : OccursIn q (Closure.mk es) := by
  obtain ⟨inner, sub, h1, h2⟩ := h
  exact OccursIn.top es inner sub (alistFind_mem h1) (alistFind_mem h2)

theorem pairPresent_closPut_self (es : List (String × List (String × Closure)))
    (u uc : String) (sub : Closure) : pairPresent (closPut es u uc sub) (u, uc) := by
  unfold pairPresent closPut
  refine ⟨alistModify uc (Closure.mk []) (fun _ => sub) ((alistFind u es).getD []),
    sub, ?_, ?_⟩
  · rw [alistFind_modify]
    simp
  · rw [alistFind_modify]
    simp

theorem pairPresent_closPut_mono {es : List (String × List (String × Closure))}
    {q : SP} (u uc : String) (sub : Closure)
    (h : pairPresent es q) : pairPresent (closPut es u uc sub) q := by
  obtain ⟨inner, s2, h1, h2⟩ := h
  unfold pairPresent closPut
  rw [alistFind_modify]
  by_cases hq : q.1 = u
  · have h3 : alistFind u es = some inner := by rw [← hq]; exact h1
    rw [if_pos hq, h3]
    refine ⟨alistModify uc (Closure.mk []) (fun _ => sub) inner, ?_⟩
    by_cases hq2 : q.2 = uc
    · exact ⟨sub, rfl, by rw [alistFind_modify, if_pos hq2]⟩
    · exact ⟨s2, rfl, by rw [alistFind_modify, if_neg hq2]; exact h2⟩
  · rw [if_neg hq]
    exact ⟨inner, s2, h1, h2⟩

theorem pairPresent_upColFold_pres (rec : SP → List SP → Closure × List SP)
    (u : String) : ∀ (ucs : List String) (acc : UpAcc) {q : SP},
    pairPresent acc.1 q → pairPresent ((ucs.foldl (upColStep rec u) acc).1) q := by
  intro ucs
  induction ucs with
  | nil => exact fun acc _ h => h
  | cons uc ucs ih =>
      intro acc q h
      exact ih (upColStep rec u acc uc) (pairPresent_closPut_mono u uc _ h)

theorem pairPresent_upColFold_mem (rec : SP → List SP → Closure × List SP)
    (u uc : String) : ∀ (ucs : List String) (acc : UpAcc), uc ∈ ucs →
    pairPresent ((ucs.foldl (upColStep rec u) acc).1) (u, uc) := by
  intro ucs
  induction ucs with
  | nil => exact fun acc h => absurd h (List.not_mem_nil _)
  | cons uc2 ucs ih =>
      intro acc h
      rcases List.mem_cons.mp h with h2 | h2
      · refine pairPresent_upColFold_pres rec u ucs (upColStep rec u acc uc2) ?_
        rw [h2]
        exact pairPresent_closPut_self _ u uc2 _
      · exact ih (upColStep rec u acc uc2) h2

theorem pairPresent_upEntryFold_pres (rec : SP → List SP → Closure × List SP) :
    ∀ (entries : UpMap) (acc : UpAcc) {q : SP},
    pairPresent acc.1 q → pairPresent ((entries.foldl (upEntryStep rec) acc).1) q := by
  intro entries
  induction entries with
  | nil => exact fun acc _ h => h
  | cons e entries ih =>
      intro acc q h
      exact ih (upEntryStep rec acc e) (pairPresent_upColFold_pres rec e.1 e.2 acc h)

theorem pairPresent_upEntryFold_mem (rec : SP → List SP → Closure × List SP) :
    ∀ (entries : UpMap) (acc : UpAcc) (u uc : String) (l : List String),
    (u, l) ∈ entries → uc ∈ l →
    pairPresent ((entries.foldl (upEntryStep rec) acc).1) (u, uc) := by
  intro entries
  induction entries with
  | nil => exact fun acc u uc l h _ => absurd h (List.not_mem_nil _)
  | cons e entries ih =>
      intro acc u uc l hmem hucl
      rcases List.mem_cons.mp hmem with h2 | h2
      · refine pairPresent_upEntryFold_pres rec entries (upEntryStep rec acc e) ?_
        have h3 : upEntryStep rec acc e = e.2.foldl (upColStep rec e.1) acc := rfl
        rw [h3, ← h2]
        exact pairPresent_upColFold_mem rec u uc l acc hucl
      · exact ih (upEntryStep rec acc e) u uc l h2 hucl

theorem pairPresent_dnStep_self (rec : SP → List SP → Closure × List SP)
    (acc : UpAcc) (dn dc : String) :
    pairPresent (dnStep rec acc dn dc).1 (dn, dc) := by
  unfold dnStep
  dsimp only
  split
  · rename_i hs
    cases h1 : alistFind dn acc.1 with
    | none => rw [h1] at hs; simp [alistFind] at hs
    | some inner =>
        rw [h1] at hs
        obtain ⟨s2, h2⟩ := Option.isSome_iff_exists.mp hs
        exact ⟨inner, s2, h1, h2⟩
  · exact pairPresent_closPut_self _ dn dc _

theorem pairPresent_dnStep_pres (rec : SP → List SP → Closure × List SP)
    {acc : UpAcc} {q : SP} (dn dc : String)
    (h : pairPresent acc.1 q) : pairPresent (dnStep rec acc dn dc).1 q := by
  unfold dnStep
  dsimp only
  split
  · exact h
  · exact pairPresent_closPut_mono dn dc _ h

theorem pairPresent_downUpsFold_pres (rec : SP → List SP → Closure × List SP)
    (p : SP) (dn dc : String) : ∀ (ups : List (String × List String))
    (acc : UpAcc) {q : SP}, pairPresent acc.1 q →
    pairPresent ((ups.foldl (downUpsStep rec p dn dc) acc).1) q := by
  intro ups
  induction ups with
  | nil => exact fun acc _ h => h
  | cons ue ups ih =>
      intro acc q h
      refine ih (downUpsStep rec p dn dc acc ue) ?_
      unfold downUpsStep
      split
      · exact pairPresent_dnStep_pres rec dn dc h
      · exact h

theorem pairPresent_downColFold_pres (rec : SP → List SP → Closure × List SP)
    (p : SP) (dn : String) : ∀ (cm : ColMap) (acc : UpAcc) {q : SP},
    pairPresent acc.1 q → pairPresent ((cm.foldl (downColStep rec p dn) acc).1) q := by
  intro cm
  induction cm with
  | nil => exact fun acc _ h => h
  | cons ce cm ih =>
      intro acc q h
      exact ih (downColStep rec p dn acc ce)
        (pairPresent_downUpsFold_pres rec p dn ce.1 ce.2 acc h)

theorem pairPresent_downModelFold_pres (rec : SP → List SP → Closure × List SP)
    (p : SP) : ∀ (gl : Graph) (acc : UpAcc) {q : SP},
    pairPresent acc.1 q → pairPresent ((gl.foldl (downModelStep rec p) acc).1) q := by
  intro gl
  induction gl with
  | nil => exact fun acc _ h => h
  | cons me gl ih =>
      intro acc q h
      exact ih (downModelStep rec p acc me)
        (pairPresent_downColFold_pres rec p me.1 me.2 acc h)

theorem pairPresent_downUpsFold_mem (rec : SP → List SP → Closure × List SP)
    (p : SP) (dn dc : String) : ∀ (ups : List (String × List String))
    (acc : UpAcc) (ue : String × List String), ue ∈ ups → ue.1 = p.1 → p.2 ∈ ue.2 →
    pairPresent ((ups.foldl (downUpsStep rec p dn dc) acc).1) (dn, dc) := by
  intro ups
  induction ups with
  | nil => exact fun acc ue h _ _ => absurd h (List.not_mem_nil _)
  | cons ue2 ups ih =>
      intro acc ue hmem h1 h2
      rcases List.mem_cons.mp hmem with h3 | h3
      · refine pairPresent_downUpsFold_pres rec p dn dc ups
          (downUpsStep rec p dn dc acc ue2) ?_
        unfold downUpsStep
        rw [if_pos (by rw [← h3]; exact ⟨h1, h2⟩)]
        exact pairPresent_dnStep_self rec acc dn dc
      · exact ih (downUpsStep rec p dn dc acc ue2) ue h3 h1 h2

theorem pairPresent_downColFold_mem (rec : SP → List SP → Closure × List SP)
    (p : SP) (dn : String) : ∀ (cm : ColMap) (acc : UpAcc) (ce : String × UpMap),
    ce ∈ cm → (∃ ue ∈ ce.2, ue.1 = p.1 ∧ p.2 ∈ ue.2) →
    pairPresent ((cm.foldl (downColStep rec p dn) acc).1) (dn, ce.1) := by
  intro cm
  induction cm with
  | nil => exact fun acc ce h _ => absurd h (List.not_mem_nil _)
  | cons ce2 cm ih =>
      intro acc ce hmem ⟨ue, hue1, hue2, hue3⟩
      rcases List.mem_cons.mp hmem with h3 | h3
      · refine pairPresent_downColFold_pres rec p dn cm (downColStep rec p dn acc ce2) ?_
        have h4 : downColStep rec p dn acc ce2 =
            ce2.2.foldl (downUpsStep rec p dn ce2.1) acc := rfl
        rw [h4, h3]
        exact pairPresent_downUpsFold_mem rec p dn ce2.1 ce2.2 acc ue
          (by rw [← h3]; exact hue1) hue2 hue3
      · exact ih (downColStep rec p dn acc ce2) ce h3 ⟨ue, hue1, hue2, hue3⟩

theorem pairPresent_downModelFold_mem (rec : SP → List SP → Closure × List SP)
    (p : SP) : ∀ (gl : Graph) (acc : UpAcc) (me : String × ColMap)
    (ce : String × UpMap), me ∈ gl → ce ∈ me.2 →
    (∃ ue ∈ ce.2, ue.1 = p.1 ∧ p.2 ∈ ue.2) →
    pairPresent ((gl.foldl (downModelStep rec p) acc).1) (me.1, ce.1) := by
  intro gl
  induction gl with
  | nil => exact fun acc me ce h _ _ => absurd h (List.not_mem_nil _)
  | cons me2 gl ih =>
      intro acc me ce hmem hce hue
      rcases List.mem_cons.mp hmem with h3 | h3
      · refine pairPresent_downModelFold_pres rec p gl (downModelStep rec p acc me2) ?_
        have h4 : downModelStep rec p acc me2 =
            me2.2.foldl (downColStep rec p me2.1) acc := rfl
        rw [h4, h3]
        exact pairPresent_downColFold_mem rec p me2.1 me2.2 acc ce
          (by rw [← h3]; exact hce) hue
      · exact ih (downModelStep rec p acc me2) me ce h3 hce hue

theorem edgeMem_exists {g : Graph} {m c u uc : String}
    (h : edgeMem g m c u uc = true) :
    ∃ cm um l, alistFind m g = some cm ∧ alistFind c cm = some um ∧
      alistFind u um = some l ∧ uc ∈ l := by
  simp only [edgeMem, decide_eq_true_eq, listAt] at h
  cases h1 : alistFind m g with
  | none => rw [h1] at h; simp [alistFind] at h
  | some cm =>
      rw [h1] at h
      simp only [Option.getD_some] at h
      cases h2 : alistFind c cm with
      | none => rw [h2] at h; simp [alistFind] at h
      | some um =>
          rw [h2] at h
          simp only [Option.getD_some] at h
          cases h3 : alistFind u um with
          | none => rw [h3] at h; simp at h
          | some l =>
              rw [h3] at h
              simp only [Option.getD_some] at h
              exact ⟨cm, um, l, rfl, h2, h3, h⟩

/-- C9: closure round-trip consistency.  For every edge `(m, c, u, uc)` of a
lineage graph, the pair `(u, uc)` occurs in the upstream closure rooted at
`(m, c)` with a fresh visited set, and the pair `(m, c)` occurs in the
downstream closure rooted at `(u, uc)` with a fresh visited set. -/
theorem C9_roundtrip (g : Graph) (m c u uc : String)
    (h : edgeMem g m c u uc = true) :
    OccursIn (u, uc) (get_upstream_lineage g m c []).1 ∧
      OccursIn (m, c) (get_downstream_lineage g u uc []).1 := by
  obtain ⟨cm, um, l, h1, h2, h3, h4⟩ := edgeMem_exists h
  constructor
  · unfold get_upstream_lineage
    show OccursIn (u, uc)
      ((getUpStep g (getUpF g ((upPairsList g).toFinset.card + 1)) (m, c) []).1)
    unfold getUpStep
    rw [if_neg (List.not_mem_nil _)]
    dsimp only
    have hl : lookup2 g m c = um := by
      simp [lookup2, h1, h2]
    rw [hl]
    exact OccursIn_of_present
      (pairPresent_upEntryFold_mem _ um ([], [(m, c)]) u uc l (alistFind_mem h3) h4)
  · unfold get_downstream_lineage
    show OccursIn (m, c)
      ((getDownStep g (getDownF g ((downPairsList g).toFinset.card + 1)) (u, uc) []).1)
    unfold getDownStep
    rw [if_neg (List.not_mem_nil _)]
    dsimp only
    exact OccursIn_of_present
      (pairPresent_downModelFold_mem _ (u, uc) g ([], [(u, uc)]) (m, cm) (c, um)
        (alistFind_mem h1) (alistFind_mem h2) ⟨(u, l), alistFind_mem h3, rfl, h4⟩)

/-- C9: witness on the cyclic graph for the edge (A, x, B, y). -/
theorem C9_roundtrip_witness :
    OccursIn ("B", "y") (get_upstream_lineage cycleGraph "A" "x" []).1 ∧
      OccursIn ("A", "x") (get_downstream_lineage cycleGraph "B" "y" []).1 :=
  C9_roundtrip cycleGraph "A" "x" "B" "y" (by decide)

/-! ### Missing target model and export shape -/

/-- C10: missing target model.  When the requested non-empty target name
matches no manifest node by its last dot-separated segment, the targeted
extraction does not fail: the condition is reported and the call returns the
empty result. -/
theorem C10_missing_target (nodes : List (String × ModelNode))
    (catalog : List (String × CatalogNode)) (target : String)
    (ht : target ≠ "")
    (hmiss : ∀ e ∈ nodes, lastSeg e.1 ≠ target) :
    extract_model_column_lineage nodes catalog target = ExtractResult.empty := by
  unfold extract_model_column_lineage
  rw [if_neg ht]
  have h1 : findTargetNode nodes target = none := by
    unfold findTargetNode
    rw [List.find?_eq_none.mpr ?_]
    · rfl
    · intro e he
      intro h2
      exact hmiss e he (by simpa using h2)
  rw [h1]

/-- C10: witness at the aliasing scenario with an absent target name. -/
theorem C10_missing_target_witness :
    extract_model_column_lineage c5nodes c5catalog "missing_model" =
      ExtractResult.empty :=
  C10_missing_target c5nodes c5catalog "missing_model" (by decide) (by decide)

theorem foldlM_extends {α β : Type} (step : List β → α → Option (List β))
    (hstep : ∀ s a r, step s a = some r → ∃ t, r = s ++ t) :
    ∀ (l : List α) (init out : List β), l.foldlM step init = some out →
      ∃ t, out = init ++ t := by
  intro l
  induction l with
  | nil =>
      intro init out h
      have h2 : some init = some out := h
      cases h2
      exact ⟨[], by simp⟩
  | cons a l ih =>
      intro init out h
      rw [List.foldlM_cons] at h
      cases hs : step init a with
      | none => rw [hs] at h; simp at h
      | some s =>
          rw [hs] at h
          have h3 : l.foldlM step s = some out := h
          obtain ⟨t1, rfl⟩ := hstep init a s hs
          obtain ⟨t2, rfl⟩ := ih (init ++ t1) out h3
          exact ⟨t1 ++ t2, by simp⟩

/-- C8: counterexample.  A targeted run with a resolved target writes two
tabular artifacts, not four: the depth-tagged writers exist in the source
but are never invoked.  On the aliasing scenario with target order_summary
the written files hold exactly two tabular artifacts. -/
theorem C8_counterexample :
    (targetedFiles c5nodes c5catalog "order_summary" 3).map
        (fun files => (files.filter fun f => f.2.isTabular).length) = some 2 ∧
      (2 : Nat) ≠ 4 := by
  constructor
  · decide
  · decide

/-- C8: amended claim.  Every targeted run that produces files yields
exactly four artifacts of which exactly two are tabular (the flattened
closures without a depth column); in the never-invoked depth-tagged writer,
a call at depth `d` emits its own row carrying depth `d` first and recurses
at depth `d` plus one, with the top-level rooting at depth 1. -/
theorem C8_export_shape (nodes : List (String × ModelNode))
    (catalog : List (String × CatalogNode)) (target : String) (fuel : Nat)
    (files : List (String × FileContent)) (L : LinDoc) (f2 : Nat)
    (m c um uc : String) (d : Nat) (rows : List Row5)
    (h1 : targetedFiles nodes catalog target fuel = some files)
    (h2 : processDF L (f2 + 1) m c um uc d = some rows) :
    (files.filter fun f => f.2.isTabular).length = 2 ∧ files.length = 4 ∧
      ∃ rest, rows = (lastSeg m, c, lastSeg um, uc, d) :: rest := by
  have hfiles : (files.filter fun f => f.2.isTabular).length = 2 ∧ files.length = 4 := by
    unfold targetedFiles at h1
    cases hres : extract_model_column_lineage nodes catalog target with
    | empty => rw [hres] at h1; cases h1
    | full up down =>
        rw [hres] at h1
        dsimp only at h1
        cases hc1 : csvRows up fuel with
        | none => rw [hc1] at h1; cases h1
        | some rows1 =>
            rw [hc1] at h1
            cases hc2 : csvRows down fuel with
            | none => rw [hc2] at h1; cases h1
            | some rows2 =>
                rw [hc2] at h1
                cases h1
                exact ⟨rfl, rfl⟩
  refine ⟨hfiles.1, hfiles.2, ?_⟩
  have h3 : processStepD L (processDF L f2) m c um uc d = some rows := h2
  unfold processStepD at h3
  split at h3
  · cases h3
  · refine foldlM_extends _ ?_ _ _ rows h3
    intro s a r hr
    refine foldlM_extends _ ?_ _ _ r hr
    intro s2 a2 r2 hr2
    split at hr2
    · cases hr2
    · cases hr2
      exact ⟨_, rfl⟩

/-- C8: witness for the amended claim at the aliasing scenario and a
one-level demonstration document for the depth writer. -/
theorem C8_export_shape_witness :
    (c8files.filter fun f => f.2.isTabular).length = 2 ∧ c8files.length = 4 ∧
      ∃ rest, [(("t" : String), ("c" : String), ("u" : String), ("x" : String),
        (1 : Nat))] = (lastSeg "t", "c", lastSeg "u", "x", 1) :: rest :=
  C8_export_shape c5nodes c5catalog "order_summary" 3 c8files depthDemoDoc 0
    "t" "c" "u" "x" 1 [("t", "c", "u", "x", 1)] (by rfl) (by decide)

end MonitoringLint
